import Mathlib

/-!
Shallow embedding of the job-hunter discovery/ingestion pipeline
(github.com/baxromumarov/job-hunter) and verification of its
specification claims.

Strings are modelled as `List Char` (abbreviated `LC`); the Go standard
library pieces the repository relies on (`net/url` parsing and
serialization, `path.Clean`, `strings` helpers) are embedded for the
well-formed URL subdomain accepted by `parseURLc` below (ASCII URLs of
the shape `scheme://host[/path][?query][#fragment]`, with the character
sets given by `isHostChar` / `isPathChar` / `isQueryChar`).  All
repository functions (`Normalize`, `DetectPageType`, `Classify`,
`ResolveCanonicalSource`, `SaveJob`, ...) are translated statement by
statement from the Go source.
-/

abbrev LC := List Char

/-! ### Go `strings` helpers -/

/-- ASCII lowercasing of one character, as Go's `strings.ToLower` acts on
ASCII input. -/
def lowerChar (c : Char) : Char :=
  if 'A' ≤ c ∧ c ≤ 'Z' then Char.ofNat (c.toNat + 32) else c

/-- Go `strings.ToLower` (ASCII fragment). -/
def goToLower (s : LC) : LC := s.map lowerChar

/-- Go `strings.HasPrefix`. -/
def hasPref (pre s : LC) : Bool := pre.isPrefixOf s

/-- Go `strings.TrimPrefix`. -/
def goTrimPref (s pre : LC) : LC :=
  if pre.isPrefixOf s then s.drop pre.length else s

/-- Go `strings.HasSuffix`. -/
def hasSuffixLC (suf s : LC) : Bool := suf.isSuffixOf s

/-- Go `strings.TrimSuffix`. -/
def goTrimSuffixLC (s suf : LC) : LC :=
  if suf.isSuffixOf s then s.take (s.length - suf.length) else s

/-- Go `strings.Contains hay needle`. -/
def containsSub : LC → LC → Bool
  | hay, needle =>
    if needle.isPrefixOf hay then true
    else match hay with
      | [] => false
      | _ :: t => containsSub t needle

/-- Split a character list at every occurrence of `c`
(Go `strings.Split` with a one-character separator). -/
def splitOnChar (c : Char) : LC → List LC
  | [] => [[]]
  | a :: rest =>
    if a = c then [] :: splitOnChar c rest
    else match splitOnChar c rest with
      | [] => [[a]]
      | p :: ps => (a :: p) :: ps

/-- Go `strings.Join` with a one-character separator. -/
def joinChar (c : Char) : List LC → LC
  | [] => []
  | [p] => p
  | p :: ps => p ++ c :: joinChar c ps

/-- Go `strings.Cut` at the first occurrence of `c`:
`some (before, after)` when found, `none` otherwise. -/
def cutChar (c : Char) : LC → Option (LC × LC)
  | [] => none
  | a :: rest =>
    if a = c then some ([], rest)
    else (cutChar c rest).map (fun p => (a :: p.1, p.2))

/-- Drop leading occurrences of `c`. -/
def trimLeadChar (c : Char) : LC → LC
  | [] => []
  | a :: t => if a = c then trimLeadChar c t else a :: t

/-- Go `strings.Trim s "<c>"`: drop leading and trailing occurrences. -/
def trimCharBoth (c : Char) (s : LC) : LC :=
  ((trimLeadChar c ((trimLeadChar c s).reverse)).reverse)

/-- Whitespace characters trimmed by Go `strings.TrimSpace` (ASCII part). -/
def isSpaceChar (c : Char) : Bool :=
  c = ' ' ∨ c = '\t' ∨ c = '\n' ∨ c = '\r'

/-- Drop leading characters satisfying `p`. -/
def trimLeadPred (p : Char → Bool) : LC → LC
  | [] => []
  | a :: t => if p a then trimLeadPred p t else a :: t

/-- Go `strings.TrimSpace` (ASCII fragment). -/
def goTrimSpace (s : LC) : LC :=
  ((trimLeadPred isSpaceChar ((trimLeadPred isSpaceChar s).reverse)).reverse)

/-! ### Character classes of the embedded URL domain -/

def isAlnumChar (c : Char) : Bool :=
  ('A' ≤ c ∧ c ≤ 'Z') ∨ ('a' ≤ c ∧ c ≤ 'z') ∨ ('0' ≤ c ∧ c ≤ '9')

def isSchemeChar (c : Char) : Bool := 'a' ≤ c ∧ c ≤ 'z'

def isHostChar (c : Char) : Bool := isAlnumChar c ∨ c = '.' ∨ c = '-'

def isPathChar (c : Char) : Bool :=
  isAlnumChar c ∨ c = '-' ∨ c = '_' ∨ c = '.' ∨ c = '~' ∨ c = '/'

def isQueryChar (c : Char) : Bool :=
  isAlnumChar c ∨ c = '-' ∨ c = '_' ∨ c = '.' ∨ c = '~' ∨
  c = '&' ∨ c = '=' ∨ c = '%' ∨ c = '+'

/-! ### Go `net/url` query encoding (ParseQuery / Values.Encode) -/

/-- Characters Go's `url.QueryEscape` leaves untouched. -/
def isUnreservedQueryChar (c : Char) : Bool :=
  ('A' ≤ c ∧ c ≤ 'Z') ∨ ('a' ≤ c ∧ c ≤ 'z') ∨ ('0' ≤ c ∧ c ≤ '9') ∨
  c = '-' ∨ c = '_' ∨ c = '.' ∨ c = '~'

/-- Upper-case hexadecimal digit for `n < 16`. -/
def hexDigitChar (n : Nat) : Char :=
  if n < 10 then Char.ofNat ('0'.toNat + n) else Char.ofNat ('A'.toNat + (n - 10))

/-- Value of a hexadecimal digit character. -/
def hexVal (c : Char) : Option Nat :=
  if '0' ≤ c ∧ c ≤ '9' then some (Char.toNat c - Char.toNat '0')
  else if 'A' ≤ c ∧ c ≤ 'F' then some (Char.toNat c - Char.toNat 'A' + 10)
  else if 'a' ≤ c ∧ c ≤ 'f' then some (Char.toNat c - Char.toNat 'a' + 10)
  else none

/-- Go `url.QueryEscape`. -/
def queryEscape (s : LC) : LC :=
  s.flatMap fun c =>
    if isUnreservedQueryChar c then [c]
    else if c = ' ' then ['+']
    else ['%', hexDigitChar (c.toNat / 16), hexDigitChar (c.toNat % 16)]

/-- Go `url.QueryUnescape` (query mode: `+` decodes to a space). -/
def queryUnescape : LC → Option LC
  | [] => some []
  | '%' :: rest =>
    match rest with
    | h :: l :: rest2 =>
      match hexVal h, hexVal l with
      | some hv, some lv => (queryUnescape rest2).map (Char.ofNat (16 * hv + lv) :: ·)
      | _, _ => none
    | _ => none
  | '+' :: rest => (queryUnescape rest).map (' ' :: ·)
  | c :: rest => (queryUnescape rest).map (c :: ·)

/-- One step of Go's `url.ParseQuery` loop on a single `&`-separated part:
`none` = parse error (poisons the whole query), `some none` = skipped
empty part, `some (some (k, v))` = one decoded key/value pair. -/
def parsePairOf (part : LC) : Option (Option (LC × LC)) :=
  if containsSub part [';'] then none
  else if part = [] then some none
  else
    let kv := match cutChar '=' part with
      | some p => p
      | none => (part, [])
    match queryUnescape kv.1, queryUnescape kv.2 with
    | some k2, some v2 => some (some (k2, v2))
    | _, _ => none

/-- Go `url.ParseQuery`, as the ordered list of decoded key/value pairs
(`none` when Go would report an error, in which case the caller
`normalizeQuery` discards the query). -/
def parseQueryPairs (raw : LC) : Option (List (LC × LC)) :=
  (splitOnChar '&' raw).foldr
    (fun part acc =>
      match parsePairOf part, acc with
      | some none, some l => some l
      | some (some p), some l => some (p :: l)
      | _, _ => none)
    (some [])

/-- Byte-wise (lexicographic) string order used by Go's `sort.Strings`. -/
def keyLe : LC → LC → Bool
  | [], _ => true
  | _ :: _, [] => false
  | a :: s, b :: t => if a < b then true else if b < a then false else keyLe s t

def pairLe (p q : LC × LC) : Prop := keyLe p.1 q.1 = true

instance : DecidableRel pairLe := fun p q => by unfold pairLe; infer_instance

/-- Stable sort of the pair list by key; together with `encodePairs` this
is Go's `url.Values.Encode` (which sorts keys and emits each key's values
in order of appearance). -/
def sortPairs (ps : List (LC × LC)) : List (LC × LC) := ps.insertionSort pairLe

def encPair (p : LC × LC) : LC := queryEscape p.1 ++ '=' :: queryEscape p.2

/-- Go `url.Values.Encode` on the ordered pair list. -/
def encodePairs (ps : List (LC × LC)) : LC :=
  joinChar '&' ((sortPairs ps).map encPair)

/-- A key dropped by `normalizeQuery` (`utm_*`, `gclid`, `fbclid`, `ref`,
`source`), compared on the lowercased key as in the source. -/
def queryKeyBlocked (k : LC) : Bool :=
  let lk := goToLower k
  hasPref "utm_".data lk ∨ lk = "gclid".data ∨ lk = "fbclid".data ∨
  lk = "ref".data ∨ lk = "source".data

def filterPairs (ps : List (LC × LC)) : List (LC × LC) :=
  ps.filter (fun p => !queryKeyBlocked p.1)

/-- `normalizeQuery` from `internal/urlutil/urlutil.go`: parse, drop
tracking keys, re-encode with sorted keys (empty on parse failure). -/
def normalizeQuery (raw : LC) : LC :=
  if raw = [] then []
  else match parseQueryPairs raw with
  | none => []
  | some ps =>
    let kept := filterPairs ps
    if kept = [] then [] else encodePairs kept

/-! ### Go `path.Clean` (segment semantics) -/

/-- One step of `path.Clean`'s element processing: skip empty and `.`
segments; `..` pops (at the root it is dropped, in a relative path it may
be retained); other segments are pushed.  `stack` holds the output
segments in reverse. -/
def cleanPush (rooted : Bool) (stack : List LC) (seg : LC) : List LC :=
  if seg = [] ∨ seg = ['.'] then stack
  else if seg = ['.', '.'] then
    if rooted then stack.tail
    else match stack with
      | [] => [['.', '.']]
      | top :: rest => if top = ['.', '.'] then seg :: top :: rest else rest
  else seg :: stack

def cleanSegs (rooted : Bool) (segs : List LC) : List LC :=
  (segs.foldl (cleanPush rooted) []).reverse

/-- Go `path.Clean`. -/
def pathClean (p : LC) : LC :=
  if p = [] then ['.']
  else
    let rooted := p.head? = some '/'
    let out := cleanSegs rooted (splitOnChar '/' p)
    if rooted then (if out = [] then ['/'] else '/' :: joinChar '/' out)
    else (if out = [] then ['.'] else joinChar '/' out)

/-! ### `internal/urlutil/urlutil.go` -/

def PageTypeCandidate : String := "candidate"
def PageTypeCareerRoot : String := "career_root"
def PageTypeJobList : String := "job_list"
def PageTypeJobDetail : String := "job_detail"
def PageTypeNonJob : String := "non_job"
def PageTypeNonJobPermanent : String := "non_job_permanent"

def careerRoots : List LC :=
  ["careers", "jobs", "join-us", "joinus", "work-with-us", "workwithus"].map String.data

def jobListSegments : List LC :=
  ["jobs", "careers", "openings", "positions", "vacancies",
   "job-openings", "job-board", "jobs-board"].map String.data

def blockedSegments : List LC :=
  ["blog", "blogs", "events", "event", "summit", "resources", "resource",
   "press", "news", "docs", "documentation", "support", "help", "legal",
   "privacy", "terms", "security", "engineering"].map String.data

def atsHostList : List LC :=
  ["boards.greenhouse.io", "greenhouse.io", "jobs.lever.co", "lever.co",
   "jobs.ashbyhq.com", "ashbyhq.com", "workdayjobs.com", "myworkdayjobs.com",
   "smartrecruiters.com", "bamboohr.com", "workable.com"].map String.data

/-- `normalizeHost`: lowercase, strip one leading `www.`. -/
def normalizeHost (host : LC) : LC := goTrimPref (goToLower host) "www.".data

/-- `normalizePath`. -/
def normalizePath (p : LC) : LC :=
  if p = [] then ['/']
  else
    let clean := pathClean p
    if clean = ['.'] then ['/']
    else if clean ≠ ['/'] ∧ hasSuffixLC ['/'] clean then goTrimSuffixLC clean ['/']
    else clean

/-- `isAlpha`: every character in `'a'..'z'`. -/
def isAlpha (s : LC) : Bool := s.all (fun c => 'a' ≤ c ∧ c ≤ 'z')

/-- `isLocale`: `xx` or `xx-yy` shaped segment. -/
def isLocale (seg : LC) : Bool :=
  if seg.length = 2 then isAlpha seg
  else if seg.length = 5 ∧ seg.get? 2 = some '-' then
    isAlpha (seg.take 2) ∧ isAlpha (seg.drop 3)
  else false

def isCareerRootSegment (seg : LC) : Bool := careerRoots.contains seg

def isJobListSegment (seg : LC) : Bool := jobListSegments.contains seg

/-- `splitPath`: trim `/` from both ends, split on `/`, lowercase. -/
def splitPath (p : LC) : List LC :=
  let trimmed := trimCharBoth '/' p
  if trimmed = [] then [] else (splitOnChar '/' trimmed).map goToLower

/-- `stripLocalePrefix` from the source (single-segment locale followed by
a career/job segment). -/
def stripLocalePref (p : LC) : LC :=
  match splitPath p with
  | s0 :: s1 :: rest =>
    if ¬ isLocale s0 then p
    else if isCareerRootSegment s1 ∨ isJobListSegment s1 then
      '/' :: joinChar '/' (s1 :: rest)
    else p
  | _ => p

/-! ### Go `net/url` URL type (embedded subdomain) -/

structure GoURL where
  scheme : LC
  host : LC
  path : LC
  rawQuery : LC
  fragment : LC
deriving DecidableEq

/-- Embedding of `url.Parse` over the character classes above (no
userinfo, no port, no opaque URLs, no percent-escapes outside the
query): absolute `scheme://host[/path][?query][#fragment]`, and — as in
Go — the scheme-less forms `//host[/path][?query][#fragment]` (an
authority, which as in Go is not taken when three slashes start the
rest) and a bare rough path such as `example.com/jobs` (everything
before `?`/`#` becomes the path and the host stays empty). -/
def parseURLc (s : LC) : Option GoURL :=
  match cutChar ':' s with
  | none =>
    let bh := match cutChar '#' s with
      | some p => p
      | none => (s, [])
    let hq := match cutChar '?' bh.1 with
      | some p => p
      | none => (bh.1, [])
    match hq.1 with
    | a :: b :: rest2 =>
      if (a = '/' ∧ b = '/') ∧ rest2.head? ≠ some '/' then
        let hp := match cutChar '/' rest2 with
          | some p => (p.1, '/' :: p.2)
          | none => (rest2, [])
        if hp.1.all isHostChar ∧ hp.2.all isPathChar ∧ hq.2.all isQueryChar then
          some ⟨[], hp.1, hp.2, hq.2, bh.2⟩
        else none
      else
        if (a :: b :: rest2).all isPathChar ∧ hq.2.all isQueryChar then
          some ⟨[], [], a :: b :: rest2, hq.2, bh.2⟩
        else none
    | other =>
      if other ≠ [] ∧ other.all isPathChar ∧ hq.2.all isQueryChar then
        some ⟨[], [], other, hq.2, bh.2⟩
      else none
  | some (scheme, rest) =>
    if scheme = [] then none
    else if ¬ scheme.all isSchemeChar then none
    else match rest with
      | a :: b :: rest2 =>
        if a = '/' ∧ b = '/' then
          let bh := match cutChar '#' rest2 with
            | some p => p
            | none => (rest2, [])
          let hq := match cutChar '?' bh.1 with
            | some p => p
            | none => (bh.1, [])
          let hp := match cutChar '/' hq.1 with
            | some p => (p.1, '/' :: p.2)
            | none => (hq.1, [])
          if hp.1.all isHostChar ∧ hp.2.all isPathChar ∧ hq.2.all isQueryChar then
            some ⟨scheme, hp.1, hp.2, hq.2, bh.2⟩
          else none
        else none
      | _ => none

/-- Embedding of `url.URL.String` on the same subdomain. -/
def serializeURL (u : GoURL) : LC :=
  u.scheme ++ ':' :: '/' :: '/' :: u.host ++ u.path
    ++ (if u.rawQuery = [] then [] else '?' :: u.rawQuery)
    ++ (if u.fragment = [] then [] else '#' :: u.fragment)

/-- Embedding of `url.URL.Hostname`: strip a `:port` suffix (a no-op on
the embedded host character set, which has no `:`). -/
def hostnameOf (host : LC) : LC :=
  match cutChar ':' host.reverse with
  | some p => p.2.reverse
  | none => host

/-- `Normalize` from `internal/urlutil/urlutil.go`: parse, default the
scheme, drop the fragment, normalize host/path/query, re-serialize;
returns `(normalized, host)`. -/
def normalizeURLc (raw : LC) : Option (LC × LC) :=
  match parseURLc raw with
  | none => none
  | some u =>
    let u' : GoURL :=
      { scheme := if u.scheme = [] then "https".data else u.scheme
        host := normalizeHost u.host
        path := stripLocalePref (normalizePath u.path)
        rawQuery := normalizeQuery u.rawQuery
        fragment := [] }
    some (serializeURL u', hostnameOf u'.host)

/-- `IsATSHost`: substring match of any known ATS host in the
normalized host. -/
def IsATSHost (host : LC) : Bool :=
  atsHostList.any (fun ats => containsSub (normalizeHost host) ats)

/-- `NormalizeATSLink`: `Normalize`, then for recognized ATS hosts
truncate the path to the company slug and drop query/fragment. -/
def normalizeATSLinkc (raw : LC) : Option (LC × LC) :=
  match normalizeURLc raw with
  | none => none
  | some (normalized, host) =>
    if host = [] ∨ ¬ IsATSHost host then some (normalized, host)
    else match parseURLc normalized with
    | none => some (normalized, host)
    | some u =>
      let segs := splitPath u.path
      let path' :=
        if containsSub host "lever.co".data then
          match segs with
          | s0 :: _ => '/' :: s0
          | [] => u.path
        else if containsSub host "greenhouse.io".data then
          match segs with
          | s0 :: _ => if s0 = "embed".data then u.path else '/' :: s0
          | [] => u.path
        else if containsSub host "ashbyhq.com".data then
          match segs with
          | s0 :: _ => '/' :: s0
          | [] => u.path
        else u.path
      let u' : GoURL := { u with path := path', rawQuery := [], fragment := [] }
      some (serializeURL u', hostnameOf u'.host)

def containsJobSegment (segs : List LC) : Bool :=
  segs.any (fun seg => isJobListSegment seg ∨ isCareerRootSegment seg ∨ seg = "job".data)

/-- `isBlockedPath`: a blocked first segment blocks unconditionally; a
blocked later segment blocks only when no segment is a career/job
keyword. -/
def isBlockedPath (segs : List LC) : Bool :=
  match segs with
  | [] => true
  | s0 :: _ =>
    if blockedSegments.contains s0 then true
    else if containsJobSegment segs then false
    else segs.any (fun s => blockedSegments.contains s)

def isCareerRootPath (segs : List LC) : Bool :=
  match segs with
  | [s] => isCareerRootSegment s
  | _ => false

def isJobListPath (segs : List LC) : Bool :=
  match segs with
  | [s] => isJobListSegment s
  | [s0, s1] => s0 = "careers".data ∧ isJobListSegment s1
  | _ => false

def isJobDetailPath : List LC → Bool
  | s0 :: s1 :: rest =>
    if (isJobListSegment s0 ∨ s0 = "careers".data) ∧ ¬ isJobListSegment s1 then true
    else isJobDetailPath (s1 :: rest)
  | _ => false

/-- Classification of the non-ATS path-shape rules in `DetectPageType`
(the career-root / job-list / job-detail cascade after the blocked-path
check). -/
def pathShapeClassify (segs : List LC) : String :=
  if segs.length = 0 then PageTypeNonJob
  else if isCareerRootPath segs then
    (if segs.head? = some "jobs".data then PageTypeJobList else PageTypeCareerRoot)
  else if isJobListPath segs then PageTypeJobList
  else if isJobDetailPath segs then PageTypeJobDetail
  else PageTypeNonJob

/-- `DetectPageType` from `internal/urlutil/urlutil.go`. -/
def DetectPageType (raw : LC) : String :=
  match normalizeURLc raw with
  | none => PageTypeNonJob
  | some (normalized, host) =>
    match parseURLc normalized with
    | none => PageTypeNonJob
    | some u =>
      let segs := splitPath u.path
      if host = [] then PageTypeNonJob
      else if IsATSHost host then
        if segs.length = 0 then PageTypeNonJob
        else if segs.length = 1 then PageTypeJobList
        else if isJobListSegment (segs.getLast?.getD []) then PageTypeJobList
        else PageTypeJobDetail
      else if isBlockedPath segs then PageTypeNonJob
      else pathShapeClassify segs

/-- `CareerRootPriority` from `internal/urlutil/urlutil.go`. -/
def CareerRootPriority (raw : LC) : Nat :=
  match normalizeURLc raw with
  | none => 100
  | some (normalized, host) =>
    if host = [] then 100
    else if IsATSHost host then 0
    else match parseURLc normalized with
    | none => 100
    | some u =>
      match splitPath u.path with
      | [] => 100
      | s0 :: _ =>
        if s0 = "careers".data then 1
        else if s0 = "jobs".data then 2
        else if s0 = "join-us".data ∨ s0 = "joinus".data then 4
        else if s0 = "work-with-us".data ∨ s0 = "workwithus".data then 5
        else 10

/-! ### Content classifier (`internal/content`) — claim C1 -/

structure Signals where
  title : String := ""
  meta : String := ""
  text : String := ""
  isATSPage : Bool := false
  atsLinks : List String := []
  jobPosting : Bool := false
  titleMatch : Bool := false
  h1Match : Bool := false
  urlMatch : Bool := false
  jobLinkCount : Nat := 0
  keywordHits : Nat := 0
  applyHits : Nat := 0
  salaryMatch : Bool := false
  locationMatch : Bool := false

structure Decision where
  pageType : String
  reason : String
  confidence : ℚ
deriving DecidableEq

/-- `Classify` from the content analyzer: the twelve-rule priority
cascade, translated branch by branch from the source. -/
def Classify (s : Signals) : Decision :=
  if s.isATSPage then ⟨PageTypeJobList, "ats_page", 95/100⟩
  else if 0 < s.atsLinks.length then ⟨PageTypeCareerRoot, "ats_link", 9/10⟩
  else if s.jobPosting then ⟨PageTypeJobList, "jsonld_jobposting", 9/10⟩
  else if s.titleMatch then ⟨PageTypeJobList, "title_pattern", 85/100⟩
  else if s.h1Match then ⟨PageTypeJobList, "h1_pattern", 8/10⟩
  else if s.urlMatch then ⟨PageTypeJobList, "url_pattern", 75/100⟩
  else if 0 < s.applyHits then ⟨PageTypeJobList, "apply_button", 7/10⟩
  else if s.salaryMatch then ⟨PageTypeJobList, "salary_pattern", 7/10⟩
  else if s.locationMatch then ⟨PageTypeJobList, "location_pattern", 7/10⟩
  else if 1 ≤ s.jobLinkCount then ⟨PageTypeJobList, "job_links", 7/10⟩
  else if 0 < s.keywordHits then ⟨PageTypeCareerRoot, "job_keywords", 6/10⟩
  else ⟨PageTypeNonJob, "no_job_signals", 2/10⟩

/-- The claim's rule table, written from the spec's wording: an ordered
list of (condition, page type, reason, confidence) rules, first hit
wins. -/
def classifyRuleTable : List ((Signals → Bool) × String × String × ℚ) :=
  [ (fun s => s.isATSPage, PageTypeJobList, "ats_page", 95/100),
    (fun s => !s.atsLinks.isEmpty, PageTypeCareerRoot, "ats_link", 9/10),
    (fun s => s.jobPosting, PageTypeJobList, "jsonld_jobposting", 9/10),
    (fun s => s.titleMatch, PageTypeJobList, "title_pattern", 85/100),
    (fun s => s.h1Match, PageTypeJobList, "h1_pattern", 8/10),
    (fun s => s.urlMatch, PageTypeJobList, "url_pattern", 75/100),
    (fun s => 0 < s.applyHits, PageTypeJobList, "apply_button", 7/10),
    (fun s => s.salaryMatch, PageTypeJobList, "salary_pattern", 7/10),
    (fun s => s.locationMatch, PageTypeJobList, "location_pattern", 7/10),
    (fun s => 1 ≤ s.jobLinkCount, PageTypeJobList, "job_links", 7/10),
    (fun s => 0 < s.keywordHits, PageTypeCareerRoot, "job_keywords", 6/10) ]

/-- Spec-side classifier: first rule of the table whose condition holds,
else the `non_job` default. -/
def specClassify (s : Signals) : Decision :=
  match classifyRuleTable.find? (fun rule => rule.1 s) with
  | some rule => ⟨rule.2.1, rule.2.2.1, rule.2.2.2⟩
  | none => ⟨PageTypeNonJob, "no_job_signals", 2/10⟩

/-! ### Error model and classifiers (`internal/observability`) — claim C5 -/

/-- Go error values reachable in the scrape/fetch paths: a `FetchError`
with an optional wrapped cause, the `context.DeadlineExceeded` sentinel,
or a plain error with a message. -/
inductive GoError
  | fetch (status : Nat) (cause : GoError)
  | fetchBare (status : Nat)
  | deadline
  | plain (msg : String)
deriving DecidableEq

def ErrorNetwork : String := "network"
def ErrorParsing : String := "parsing"
def ErrorAI : String := "ai"
def ErrorRateLimit : String := "rate_limit"
def ErrorStore : String := "store"
def ErrorUnknown : String := "unknown"

/-- `errors.As(err, &fe)` for `*httpx.FetchError`: the error itself is a
`FetchError` (unwrapping never reaches one otherwise, since only
`FetchError` wraps). -/
def asFetchStatus : GoError → Option Nat
  | .fetch st _ => some st
  | .fetchBare st => some st
  | .deadline => none
  | .plain _ => none

/-- `errors.Is(err, context.DeadlineExceeded)`: walk the unwrap chain. -/
def errIsDeadline : GoError → Bool
  | .deadline => true
  | .fetch _ cause => errIsDeadline cause
  | .fetchBare _ => false
  | .plain _ => false

/-- Go error message, for the substring checks of `ClassifyScrapeError`. -/
def errMsg : GoError → String
  | .fetch st cause =>
    "fetch error (status " ++ toString st ++ "): " ++ errMsg cause
  | .fetchBare st => "fetch error (status " ++ toString st ++ ")"
  | .deadline => "context deadline exceeded"
  | .plain m => m

/-- `ClassifyFetchError` from `internal/observability` (`nil` handled by
the `Option`). -/
def ClassifyFetchError : Option GoError → String
  | none => ErrorUnknown
  | some e =>
    match asFetchStatus e with
    | some st =>
      if st = 429 then ErrorRateLimit
      else if 500 ≤ st then ErrorNetwork
      else ErrorNetwork
    | none => if errIsDeadline e then ErrorNetwork else ErrorUnknown

def parseSubstrings : List String :=
  ["parse failed", "decode failed", "unmarshal", "invalid character"]

/-- `ClassifyScrapeError` from `internal/observability`. -/
def ClassifyScrapeError : Option GoError → String
  | none => ErrorUnknown
  | some e =>
    let kind := ClassifyFetchError (some e)
    if kind ≠ ErrorUnknown then kind
    else
      let msg := goToLower (errMsg e).data
      if parseSubstrings.any (fun sub => containsSub msg sub.data) then ErrorParsing
      else ErrorNetwork

/-! ### Polite fetcher retry loop (`internal/httpx/colly_fetcher.go`) — claim C6 -/

/-- `shouldBackoff`: HTTP 429 or any 5xx status. -/
def shouldBackoff (status : Nat) : Bool :=
  if status = 429 then true
  else if 500 ≤ status ∧ status ≤ 599 then true
  else false

/-- Per-host backoff state (`hostPolicy.nextAllowed`), times in
milliseconds. -/
structure HostState where
  nextAllowed : Int
deriving DecidableEq

/-- `applyBackoff`: advance `nextAllowed` to `now + 500ms·2^attempt`,
never moving it backwards. -/
def applyBackoff (now : Int) (attempt : Nat) (st : HostState) : HostState :=
  let delay : Int := 500 * 2 ^ attempt
  let nxt := now + delay
  if st.nextAllowed < nxt then ⟨nxt⟩ else st

/-- Result of one `fetchOnce` call: HTTP status and optional error
(`none` = success). -/
structure FetchOutcome where
  status : Nat
  err : Option GoError

inductive FetchResult
  | success (status : Nat)
  | immediateError (status : Nat) (e : GoError)
  | exhausted (status : Nat) (lastErr : GoError)
deriving DecidableEq

/-- The `fetchWithRetry` loop body: `t n` is the wall-clock time at which
attempt `n` fails (used by `applyBackoff`), `o n` the outcome of attempt
`n`; returns the result, the number of attempts performed, and the final
host state.  `fuel` counts the remaining iterations of the
`for attempt := 0; attempt < 3` loop. -/
def fetchGo (t : Nat → Int) (o : Nat → FetchOutcome) :
    Nat → Nat → HostState → Nat → Option GoError → FetchResult × Nat × HostState
  | 0, attempt, st, lastStatus, lastErr =>
    (.exhausted lastStatus (lastErr.getD (.plain "colly fetch failed")), attempt, st)
  | fuel + 1, attempt, st, _, _ =>
    let oc := o attempt
    match oc.err with
    | none => (.success oc.status, attempt + 1, st)
    | some e =>
      if shouldBackoff oc.status then
        fetchGo t o fuel (attempt + 1) (applyBackoff (t attempt) attempt st) oc.status (some e)
      else (.immediateError oc.status e, attempt + 1, st)

/-- `fetchWithRetry`: at most 3 attempts. -/
def fetchWithRetry (t : Nat → Int) (o : Nat → FetchOutcome) (st : HostState) :
    FetchResult × Nat × HostState :=
  fetchGo t o 3 0 st 0 none

/-! ### Scoring (`IngestionService.scoreJob` / `ruleScore`) — claim C7 -/

structure MatchResult where
  matchScore : Nat
  shortSummary : String

/-- `ruleScore`: count of configured keyword phrases contained in the
lowercased text, mapped to a score band. -/
def ruleScore (keywords : List String) (text : String) : Nat :=
  let lower := goToLower text.data
  let hits := (keywords.filter (fun kw => containsSub lower kw.data)).length
  if 4 ≤ hits then 95
  else if hits = 3 then 85
  else if hits = 2 then 75
  else if hits = 1 then 60
  else 0

/-- `isBlockedJob`: any configured blocked keyword occurs in the
lowercased, trimmed `title + " " + description`. -/
def isBlockedJob (blockedJob : List String) (title description : String) : Bool :=
  let text := goToLower (goTrimSpace (title ++ " " ++ description).data)
  if text = [] then false
  else blockedJob.any (fun kw => kw ≠ "" ∧ containsSub text kw.data)

/-- `scoreJob`: blocked-keyword gate, rule score gate, LLM match with
rule-only fallback, convex combination (`int(0.4·rule + 0.6·match)`,
modelled in exact rational arithmetic). -/
def scoreJob (keywords blockedJob : List String) (title description : String)
    (matchRes : Option MatchResult) : Nat × String :=
  if isBlockedJob blockedJob title description then (0, "")
  else
    let rs := ruleScore keywords (title ++ " " ++ description)
    if rs = 0 then (0, "")
    else match matchRes with
      | none => (rs, "Rule-based match only")
      | some m => (⌊(rs : ℚ) * (4/10) + (m.matchScore : ℚ) * (6/10)⌋₊, m.shortSummary)

/-! ### Store (`internal/store`) — claims C2, C3, C10 -/

structure SourceRow where
  id : Nat
  url : String
  normalizedURL : String
  host : String
  srcType : String
  pageType : String
  isAlias : Bool
  canonicalURL : String
  isJobSite : Bool
  techRelated : Bool
  confidence : ℚ
  reason : String
deriving DecidableEq

/-- The `sources` table, rows in ascending `discovered_at` order (new
rows are appended). -/
abbrev SourceDB := List SourceRow

/-- `GetCanonicalSourceByHost`: oldest non-alias `career_root`/`job_list`
job-site row for the host. -/
def GetCanonicalSourceByHost (db : SourceDB) (host : String) : Option SourceRow :=
  db.find? (fun r =>
    r.host = host ∧ r.isAlias = false ∧ r.isJobSite = true ∧
    (r.pageType = PageTypeCareerRoot ∨ r.pageType = PageTypeJobList))

/-- `MarkSourceAlias`. -/
def MarkSourceAlias (db : SourceDB) (sourceID : Nat) (canonicalURL : String) : SourceDB :=
  db.map fun r =>
    if r.id = sourceID then { r with isAlias := true, canonicalURL := canonicalURL } else r

/-- `ResolveCanonicalSource`: returns `(canonical url, caller is alias,
updated table)`. -/
def ResolveCanonicalSource (db : SourceDB) (normalizedURL host pageType : String) :
    String × Bool × SourceDB :=
  if pageType ≠ PageTypeCareerRoot ∧ pageType ≠ PageTypeJobList then
    (normalizedURL, false, db)
  else if host = "" then (normalizedURL, false, db)
  else match GetCanonicalSourceByHost db host with
  | none => (normalizedURL, false, db)
  | some existing =>
    let existingPriority := CareerRootPriority existing.url.data
    let newPriority := CareerRootPriority normalizedURL.data
    if existingPriority ≤ newPriority then (existing.url, true, db)
    else (normalizedURL, false, MarkSourceAlias db existing.id normalizedURL)

/-- String-level `Normalize` wrapper (the Go function's signature). -/
def Normalize (raw : String) : Option (String × String) :=
  (normalizeURLc raw.data).map fun r => (String.mk r.1, String.mk r.2)

/-- `AddSource` from `internal/store` (part_015): normalize with raw-URL
fallback, look up by normalized or raw URL, update or insert.  Returns
`(id, existed, table)`. -/
def AddSource (db : SourceDB) (rawURL sourceType pageType : String) (isAlias : Bool)
    (canonicalURL : String) (isJobSite techRelated : Bool) (confidence : ℚ)
    (reason : String) : Nat × Bool × SourceDB :=
  let nh := match Normalize rawURL with
    | some p => p
    | none => (rawURL, "")
  let pt := if pageType = "" then PageTypeNonJob else pageType
  match db.find? (fun r => r.normalizedURL = nh.1 ∨ r.url = rawURL) with
  | some r =>
    (r.id, true,
      db.map fun row => if row.id = r.id then
        { row with url := rawURL, normalizedURL := nh.1, host := nh.2,
                   srcType := sourceType, pageType := pt, isAlias := isAlias,
                   canonicalURL := canonicalURL, isJobSite := isJobSite,
                   techRelated := techRelated, confidence := confidence,
                   reason := reason }
        else row)
  | none =>
    let id := db.length + 1
    (id, false,
      db ++ [{ id := id, url := rawURL, normalizedURL := nh.1, host := nh.2,
               srcType := sourceType, pageType := pt, isAlias := isAlias,
               canonicalURL := canonicalURL, isJobSite := isJobSite,
               techRelated := techRelated, confidence := confidence,
               reason := reason }])

structure JobRow where
  sourceID : Nat
  sourceType : Option String
  url : String
  title : String
  description : String
  company : String
  location : String
  postedAt : Option Int
  matchScore : Int
  matchSummary : String
  applied : Bool := false
  rejected : Bool := false
  closed : Bool := false
  createdAt : Int := 0
  updatedAt : Int := 0
deriving DecidableEq

/-- The `jobs` table (unique on `url`). -/
abbrev JobDB := List JobRow

def findJobByURL (db : JobDB) (url : String) : Option JobRow :=
  db.find? (fun j => j.url = url)

/-- `SaveJob`: `INSERT ... ON CONFLICT (url) DO UPDATE` with
`posted_at = COALESCE(jobs.posted_at, EXCLUDED.posted_at)` and
`source_type = COALESCE(EXCLUDED.source_type, jobs.source_type)`. -/
def SaveJob (db : JobDB) (now : Int) (job : JobRow) : JobDB :=
  match findJobByURL db job.url with
  | none => db ++ [{ job with createdAt := now }]
  | some _ =>
    db.map fun old =>
      if old.url = job.url then
        { old with
            sourceID := job.sourceID,
            sourceType := job.sourceType.orElse (fun _ => old.sourceType),
            title := job.title, description := job.description,
            company := job.company, location := job.location,
            postedAt := old.postedAt.orElse (fun _ => job.postedAt),
            matchScore := job.matchScore, matchSummary := job.matchSummary,
            updatedAt := now }
      else old

/-! ### Well-formedness of embedded URLs -/

/-- The invariant `parseURLc` guarantees and `serializeURL` requires for
a clean round trip. -/
def GoodURL (u : GoURL) : Prop :=
  u.scheme ≠ [] ∧ (∀ c ∈ u.scheme, isSchemeChar c = true) ∧
  (∀ c ∈ u.host, isHostChar c = true) ∧
  (u.path = [] ∨ u.path.head? = some '/') ∧
  (∀ c ∈ u.path, isPathChar c = true) ∧
  (∀ c ∈ u.rawQuery, isQueryChar c = true) ∧
  u.fragment = []

/-- A company/job slug segment: nonempty, lowercase alphanumerics and
dashes. -/
def isSlugSeg (s : LC) : Bool :=
  !s.isEmpty && s.all (fun c => ('a' ≤ c ∧ c ≤ 'z') ∨ ('0' ≤ c ∧ c ≤ '9') ∨ c = '-')

/-! ## Theorems -/

/-- C1: `Classify` applies the twelve rules in exactly the claimed
priority order, returning the tuple of the first rule whose condition
holds (rule table `classifyRuleTable`, default `(non_job,
"no_job_signals", 0.20)`). -/
theorem classify_follows_rule_table (s : Signals) : Classify s = specClassify s := by
  unfold Classify specClassify classifyRuleTable
  by_cases h1 : s.isATSPage
  · rw [if_pos h1, List.find?_cons_of_pos _ (by simpa using h1)]
  rw [if_neg h1, List.find?_cons_of_neg _ (by simpa using h1)]
  by_cases h2 : s.atsLinks = []
  · rw [if_neg (by simp [h2]), List.find?_cons_of_neg _ (by simp [h2])]
    by_cases h3 : s.jobPosting
    · rw [if_pos h3, List.find?_cons_of_pos _ (by simpa using h3)]
    rw [if_neg h3, List.find?_cons_of_neg _ (by simpa using h3)]
    by_cases h4 : s.titleMatch
    · rw [if_pos h4, List.find?_cons_of_pos _ (by simpa using h4)]
    rw [if_neg h4, List.find?_cons_of_neg _ (by simpa using h4)]
    by_cases h5 : s.h1Match
    · rw [if_pos h5, List.find?_cons_of_pos _ (by simpa using h5)]
    rw [if_neg h5, List.find?_cons_of_neg _ (by simpa using h5)]
    by_cases h6 : s.urlMatch
    · rw [if_pos h6, List.find?_cons_of_pos _ (by simpa using h6)]
    rw [if_neg h6, List.find?_cons_of_neg _ (by simpa using h6)]
    by_cases h7 : 0 < s.applyHits
    · rw [if_pos h7, List.find?_cons_of_pos _ (by simpa using h7)]
    rw [if_neg h7, List.find?_cons_of_neg _ (by simpa using h7)]
    by_cases h8 : s.salaryMatch
    · rw [if_pos h8, List.find?_cons_of_pos _ (by simpa using h8)]
    rw [if_neg h8, List.find?_cons_of_neg _ (by simpa using h8)]
    by_cases h9 : s.locationMatch
    · rw [if_pos h9, List.find?_cons_of_pos _ (by simpa using h9)]
    rw [if_neg h9, List.find?_cons_of_neg _ (by simpa using h9)]
    by_cases h10 : 1 ≤ s.jobLinkCount
    · rw [if_pos h10, List.find?_cons_of_pos _ (by simpa using h10)]
    rw [if_neg h10, List.find?_cons_of_neg _ (by simpa using h10)]
    by_cases h11 : 0 < s.keywordHits
    · rw [if_pos h11, List.find?_cons_of_pos _ (by simpa using h11)]
    rw [if_neg h11, List.find?_cons_of_neg _ (by simpa using h11)]
    rfl
  rw [if_pos (List.length_pos.mpr h2),
    List.find?_cons_of_pos _ (by simp [List.isEmpty_iff, h2])]

/-- C5 counterexample: the claim says every error not matched by an
earlier rule maps to `"unknown"`, but `ClassifyScrapeError` maps a plain
unmatched error (message `"boom"`) to `"network"`, and
`ClassifyFetchError` maps a fetch error with status 404 (neither 429 nor
5xx) to `"network"` as well. -/
theorem classify_error_default_counterexample :
    ClassifyScrapeError (some (.plain "boom")) = ErrorNetwork ∧
    ClassifyFetchError (some (.fetchBare 404)) = ErrorNetwork ∧
    ErrorNetwork ≠ ErrorUnknown := by
  refine ⟨by decide, by decide, by decide⟩

/-- C5 amended: 429 ⇒ `rate_limit`; any other fetch-error status
(5xx or not) ⇒ `network`; context deadline ⇒ `network`; a parse/decode
substring ⇒ `parsing`; `ClassifyFetchError` maps every other error to
`unknown`, while `ClassifyScrapeError` maps every other error to
`network`. -/
theorem classify_error_kinds (e : GoError) :
    (∀ st, asFetchStatus e = some st → st = 429 →
      ClassifyFetchError (some e) = ErrorRateLimit) ∧
    (∀ st, asFetchStatus e = some st → st ≠ 429 →
      ClassifyFetchError (some e) = ErrorNetwork) ∧
    (asFetchStatus e = none → errIsDeadline e = true →
      ClassifyFetchError (some e) = ErrorNetwork) ∧
    (asFetchStatus e = none → errIsDeadline e = false →
      ClassifyFetchError (some e) = ErrorUnknown) ∧
    (ClassifyFetchError (some e) ≠ ErrorUnknown →
      ClassifyScrapeError (some e) = ClassifyFetchError (some e)) ∧
    (ClassifyFetchError (some e) = ErrorUnknown →
      parseSubstrings.any (fun sub => containsSub (goToLower (errMsg e).data) sub.data) = true →
      ClassifyScrapeError (some e) = ErrorParsing) ∧
    (ClassifyFetchError (some e) = ErrorUnknown →
      parseSubstrings.any (fun sub => containsSub (goToLower (errMsg e).data) sub.data) = false →
      ClassifyScrapeError (some e) = ErrorNetwork) := by
  refine ⟨?_, ?_, ?_, ?_, ?_, ?_, ?_⟩
  · intro st hst h429
    simp [ClassifyFetchError, hst, h429]
  · intro st hst h429
    simp only [ClassifyFetchError, hst]
    rw [if_neg h429]
    split <;> rfl
  · intro hst hdl
    simp [ClassifyFetchError, hst, hdl]
  · intro hst hdl
    simp [ClassifyFetchError, hst, hdl]
  · intro hne
    simp only [ClassifyScrapeError]
    rw [if_pos hne]
  · intro hu hsub
    simp only [ClassifyScrapeError]
    rw [if_neg (by simp [hu]), if_pos hsub]
  · intro hu hsub
    simp only [ClassifyScrapeError]
    rw [if_neg (by simp [hu]), if_neg (by simp [hsub])]

/-- C5 witness: the amended classification evaluated at concrete errors. -/
theorem classify_error_kinds_witness :
    ClassifyFetchError (some (.fetchBare 429)) = ErrorRateLimit ∧
    ClassifyScrapeError (some (.plain "json: decode failed")) = ErrorParsing := by
  constructor
  · exact (classify_error_kinds (.fetchBare 429)).1 429 rfl rfl
  · exact (classify_error_kinds (.plain "json: decode failed")).2.2.2.2.2.1
      (by decide) (by decide)

theorem applyBackoff_nextAllowed (now : Int) (a : Nat) (s : HostState) :
    (applyBackoff now a s).nextAllowed = max s.nextAllowed (now + 500 * 2 ^ a) := by
  simp only [applyBackoff]
  split_ifs with h
  · rw [max_eq_right h.le]
  · rw [max_eq_left (by omega)]

theorem fetchGo_attempts_le (t : Nat → Int) (o : Nat → FetchOutcome) :
    ∀ (fuel attempt : Nat) (st : HostState) (ls : Nat) (le : Option GoError),
      (fetchGo t o fuel attempt st ls le).2.1 ≤ attempt + fuel := by
  intro fuel
  induction fuel with
  | zero => intro attempt st ls le; simp [fetchGo]
  | succ n ih =>
    intro attempt st ls le
    cases h : (o attempt).err with
    | none => simp [fetchGo, h]
    | some e =>
      simp only [fetchGo, h]
      by_cases hb : shouldBackoff (o attempt).status
      · rw [if_pos hb]
        have := ih (attempt + 1) (applyBackoff (t attempt) attempt st) (o attempt).status (some e)
        omega
      · rw [if_neg hb]
        dsimp only
        omega

theorem fetchGo_nextAllowed_mono (t : Nat → Int) (o : Nat → FetchOutcome) :
    ∀ (fuel attempt : Nat) (st : HostState) (ls : Nat) (le : Option GoError),
      st.nextAllowed ≤ (fetchGo t o fuel attempt st ls le).2.2.nextAllowed := by
  intro fuel
  induction fuel with
  | zero => intro attempt st ls le; simp [fetchGo]
  | succ n ih =>
    intro attempt st ls le
    cases h : (o attempt).err with
    | none => simp [fetchGo, h]
    | some e =>
      simp only [fetchGo, h]
      by_cases hb : shouldBackoff (o attempt).status
      · rw [if_pos hb]
        refine le_trans ?_ (ih (attempt + 1) _ _ _)
        rw [applyBackoff_nextAllowed]
        exact le_max_left _ _
      · rw [if_neg hb]

/-- C6: the retry loop performs at most 3 attempts; a successful attempt
returns body/status at once; a failed attempt with a non-backoff status
returns immediately; a failed attempt with status 429/5xx advances the
host's next-allowed timestamp by `500ms·2^attempt` (never moving it
backwards) and retries; `next-allowed` never moves backwards over the
whole loop. -/
theorem fetch_with_retry_spec (t : Nat → Int) (o : Nat → FetchOutcome) (st : HostState) :
    ((fetchWithRetry t o st).2.1 ≤ 3) ∧
    (st.nextAllowed ≤ (fetchWithRetry t o st).2.2.nextAllowed) ∧
    ((o 0).err = none → fetchWithRetry t o st = (.success (o 0).status, 1, st)) ∧
    (∀ e, (o 0).err = some e → shouldBackoff (o 0).status = false →
      fetchWithRetry t o st = (.immediateError (o 0).status e, 1, st)) ∧
    (∀ e, (o 0).err = some e → shouldBackoff (o 0).status = true →
      fetchWithRetry t o st =
        fetchGo t o 2 1 (applyBackoff (t 0) 0 st) (o 0).status (some e) ∧
      (applyBackoff (t 0) 0 st).nextAllowed = max st.nextAllowed (t 0 + 500 * 2 ^ 0)) ∧
    (∀ (status : Nat), shouldBackoff status = true ↔
      (status = 429 ∨ (500 ≤ status ∧ status ≤ 599))) := by
  refine ⟨fetchGo_attempts_le t o 3 0 st 0 none,
          fetchGo_nextAllowed_mono t o 3 0 st 0 none, ?_, ?_, ?_, ?_⟩
  · intro h
    simp [fetchWithRetry, fetchGo, h]
  · intro e he hb
    simp [fetchWithRetry, fetchGo, he, hb]
  · intro e he hb
    refine ⟨?_, applyBackoff_nextAllowed _ _ _⟩
    show fetchGo t o (2 + 1) 0 st 0 none = _
    rw [fetchGo]
    simp [he, hb]
  · intro status
    unfold shouldBackoff
    split
    · simp_all
    · split <;> simp_all

/-- C6 witness: concrete runs of the loop (immediate success, and a 503
failure that backs off and retries). -/
theorem fetch_with_retry_witness :
    fetchWithRetry (fun _ => 0) (fun _ => ⟨200, none⟩) ⟨0⟩ = (.success 200, 1, ⟨0⟩) ∧
    fetchWithRetry (fun _ => 100) (fun n => if n = 0 then ⟨503, some .deadline⟩ else ⟨200, none⟩) ⟨0⟩ =
      fetchGo (fun _ => 100) (fun n => if n = 0 then ⟨503, some .deadline⟩ else ⟨200, none⟩)
        2 1 (applyBackoff 100 0 ⟨0⟩) 503 (some .deadline) := by
  constructor
  · exact (fetch_with_retry_spec (fun _ => 0) (fun _ => ⟨200, none⟩) ⟨0⟩).2.2.1 rfl
  · exact ((fetch_with_retry_spec (fun _ => 100)
      (fun n => if n = 0 then ⟨503, some .deadline⟩ else ⟨200, none⟩) ⟨0⟩).2.2.2.2.1
      .deadline rfl rfl).1

/-- C7: `scoreJob` returns `(0, "")` on a blocked-job keyword or a zero
rule score; the rule score depends only on the number of distinct
matching keyword phrases (`≥4 ⇒ 95, 3 ⇒ 85, 2 ⇒ 75, 1 ⇒ 60, 0 ⇒ 0`);
when the LLM match fails the result is `(rule_score, "Rule-based match
only")`; otherwise the final score is `⌊0.4·rule + 0.6·match⌋` with the
match's short summary. -/
theorem score_job_spec (keywords blockedJob : List String) (title description : String)
    (matchRes : Option MatchResult) :
    (isBlockedJob blockedJob title description = true →
      scoreJob keywords blockedJob title description matchRes = (0, "")) ∧
    (ruleScore keywords (title ++ " " ++ description) = 0 →
      scoreJob keywords blockedJob title description matchRes = (0, "")) ∧
    (isBlockedJob blockedJob title description = false →
      ruleScore keywords (title ++ " " ++ description) ≠ 0 → matchRes = none →
      scoreJob keywords blockedJob title description matchRes =
        (ruleScore keywords (title ++ " " ++ description), "Rule-based match only")) ∧
    (∀ m, isBlockedJob blockedJob title description = false →
      ruleScore keywords (title ++ " " ++ description) ≠ 0 → matchRes = some m →
      scoreJob keywords blockedJob title description matchRes =
        ((2 * ruleScore keywords (title ++ " " ++ description) + 3 * m.matchScore) / 5,
          m.shortSummary)) ∧
    (∀ text, ruleScore keywords text =
      (if 4 ≤ ((keywords.filter (fun kw => containsSub (goToLower text.data) kw.data)).length) then 95
       else if (keywords.filter (fun kw => containsSub (goToLower text.data) kw.data)).length = 3 then 85
       else if (keywords.filter (fun kw => containsSub (goToLower text.data) kw.data)).length = 2 then 75
       else if (keywords.filter (fun kw => containsSub (goToLower text.data) kw.data)).length = 1 then 60
       else 0)) := by
  refine ⟨?_, ?_, ?_, ?_, fun text => rfl⟩
  · intro hb
    simp [scoreJob, hb]
  · intro hr
    unfold scoreJob
    split_ifs with hb
    · rfl
    · simp [hr]
  · intro hb hr hm
    simp only [scoreJob, hb, Bool.false_eq_true, if_false, hm]
    rw [if_neg hr]
  · intro m hb hr hm
    simp only [scoreJob, hb, Bool.false_eq_true, if_false, hm]
    rw [if_neg hr]
    have hfloor : (⌊(ruleScore keywords (title ++ " " ++ description) : ℚ) * (4/10) +
        (m.matchScore : ℚ) * (6/10)⌋₊ : ℕ) =
        (2 * ruleScore keywords (title ++ " " ++ description) + 3 * m.matchScore) / 5 := by
      have : (ruleScore keywords (title ++ " " ++ description) : ℚ) * (4/10) +
          (m.matchScore : ℚ) * (6/10) =
          ((2 * ruleScore keywords (title ++ " " ++ description) + 3 * m.matchScore : ℕ) : ℚ) /
            ((5 : ℕ) : ℚ) := by
        push_cast
        ring
      rw [this, Nat.floor_div_nat, Nat.floor_natCast]
    rw [hfloor]

/-- C7 witness: a concrete scoring run (one keyword hit, LLM failure,
rule-only fallback score 60). -/
theorem score_job_witness :
    scoreJob ["golang"] [] "Golang developer" "remote" none = (60, "Rule-based match only") := by
  have h := (score_job_spec ["golang"] [] "Golang developer" "remote" none).2.2.1
    (by decide) (by decide) rfl
  have hr : ruleScore ["golang"] ("Golang developer" ++ " " ++ "remote") = 60 := by decide
  rw [h, hr]

theorem findJobByURL_save_update (db : JobDB) (now : Int) (job old : JobRow)
    (hold : findJobByURL db job.url = some old) :
    findJobByURL (SaveJob db now job) job.url = some
      { old with
          sourceID := job.sourceID,
          sourceType := job.sourceType.orElse (fun _ => old.sourceType),
          title := job.title, description := job.description,
          company := job.company, location := job.location,
          postedAt := old.postedAt.orElse (fun _ => job.postedAt),
          matchScore := job.matchScore, matchSummary := job.matchSummary,
          updatedAt := now } := by
  unfold SaveJob
  rw [hold]
  unfold findJobByURL at hold ⊢
  induction db with
  | nil => simp at hold
  | cons a rest ih =>
    by_cases ha : a.url = job.url
    · rw [List.find?_cons_of_pos _ (by simpa using ha)] at hold
      cases hold
      simp only [List.map_cons]
      rw [if_pos ha, List.find?_cons_of_pos _ (by simpa using ha)]
    · rw [List.find?_cons_of_neg _ (by simpa using ha)] at hold
      simp only [List.map_cons]
      rw [if_neg ha, List.find?_cons_of_neg _ (by simpa using ha)]
      exact ih hold

/-- C3: for an upsert of an already-existing job URL, the stored
`posted_at` equals `COALESCE(old.posted_at, incoming.posted_at)`: a
non-null `posted_at` is never changed, a null one can only be filled
with the incoming value. -/
theorem save_job_posted_at (db : JobDB) (now : Int) (job old : JobRow)
    (hold : findJobByURL db job.url = some old) :
    ∃ new, findJobByURL (SaveJob db now job) job.url = some new ∧
      new.postedAt = (old.postedAt.orElse fun _ => job.postedAt) ∧
      (∀ d, old.postedAt = some d → new.postedAt = some d) ∧
      (old.postedAt = none → new.postedAt = job.postedAt) := by
  refine ⟨_, findJobByURL_save_update db now job old hold, rfl, ?_, ?_⟩
  · intro d hd
    simp [hd, Option.orElse]
  · intro hd
    simp [hd, Option.orElse]

/-- C3 witness: a concrete upsert on an existing row whose `posted_at`
is already set keeps it. -/
theorem save_job_posted_at_witness :
    ∃ new, findJobByURL (SaveJob
        [⟨1, none, "u", "t", "d", "c", "l", some 5, 80, "s", false, false, false, 0, 0⟩] 7
        ⟨2, none, "u", "t2", "d2", "c2", "l2", some 9, 70, "s2", false, false, false, 0, 0⟩)
      (JobRow.url ⟨2, none, "u", "t2", "d2", "c2", "l2", some 9, 70, "s2", false, false, false, 0, 0⟩) =
        some new ∧
      new.postedAt = ((some (5 : Int)).orElse fun _ => some 9) ∧
      (∀ d, some (5 : Int) = some d → new.postedAt = some d) ∧
      (some (5 : Int) = none → new.postedAt = some 9) := by
  exact save_job_posted_at _ 7 _
    ⟨1, none, "u", "t", "d", "c", "l", some 5, 80, "s", false, false, false, 0, 0⟩ (by decide)

/-- C2: `ResolveCanonicalSource` for `career_root`/`job_list` callers:
no existing canonical ⇒ the caller becomes the canonical (returned
not-alias); an existing canonical with priority ≤ the caller's wins
(caller marked alias of it, ties to the existing row); a caller with
strictly lower priority takes over and the old canonical is marked as an
alias pointing at it. -/
theorem resolve_canonical_source_spec (db : SourceDB) (u host pageType : String)
    (hp : pageType = PageTypeCareerRoot ∨ pageType = PageTypeJobList)
    (hh : host ≠ "") :
    (GetCanonicalSourceByHost db host = none →
      ResolveCanonicalSource db u host pageType = (u, false, db)) ∧
    (∀ e, GetCanonicalSourceByHost db host = some e →
      CareerRootPriority e.url.data ≤ CareerRootPriority u.data →
      ResolveCanonicalSource db u host pageType = (e.url, true, db)) ∧
    (∀ e, GetCanonicalSourceByHost db host = some e →
      CareerRootPriority u.data < CareerRootPriority e.url.data →
      ResolveCanonicalSource db u host pageType = (u, false, MarkSourceAlias db e.id u) ∧
      ∀ r ∈ MarkSourceAlias db e.id u, r.id = e.id →
        r.isAlias = true ∧ r.canonicalURL = u) := by
  have hgate : ¬ (pageType ≠ PageTypeCareerRoot ∧ pageType ≠ PageTypeJobList) := by
    rcases hp with h | h <;> simp [h]
  refine ⟨?_, ?_, ?_⟩
  · intro hnone
    unfold ResolveCanonicalSource
    rw [if_neg hgate, if_neg hh, hnone]
  · intro e he hle
    unfold ResolveCanonicalSource
    rw [if_neg hgate, if_neg hh, he]
    simp only [if_pos hle]
  · intro e he hlt
    unfold ResolveCanonicalSource
    rw [if_neg hgate, if_neg hh, he]
    refine ⟨by simp only [if_neg (not_le.mpr hlt)], ?_⟩
    intro r hr hid
    unfold MarkSourceAlias at hr
    rcases List.mem_map.mp hr with ⟨a, -, rfl⟩
    by_cases hae : a.id = e.id
    · rw [if_pos hae]
      exact ⟨rfl, rfl⟩
    · rw [if_neg hae] at hid ⊢
      exact absurd hid hae

/-- C2 witness: host `acme.com` with canonical `/careers` (priority 1);
a second discovery of `/jobs` (priority 2) is told to alias the existing
canonical. -/
theorem resolve_canonical_source_witness :
    ResolveCanonicalSource
      [⟨1, "https://acme.com/careers", "https://acme.com/careers", "acme.com", "company_page",
        "career_root", false, "", true, true, 9/10, "r"⟩]
      "https://acme.com/jobs" "acme.com" "job_list" =
      ("https://acme.com/careers", true,
        [⟨1, "https://acme.com/careers", "https://acme.com/careers", "acme.com", "company_page",
          "career_root", false, "", true, true, 9/10, "r"⟩]) := by
  exact (resolve_canonical_source_spec _ "https://acme.com/jobs" "acme.com" "job_list"
      (Or.inr rfl) (by decide)).2.1
    ⟨1, "https://acme.com/careers", "https://acme.com/careers", "acme.com", "company_page",
      "career_root", false, "", true, true, 9/10, "r"⟩
    (by rfl) (by decide)

/-- C10: when `urlutil.Normalize` fails, `AddSource` does not propagate
the error or reject the row: it falls back to the raw URL string as the
normalized URL with an empty host and proceeds with the lookup and
upsert keyed on that raw string (insert when absent, update when
present). -/
theorem add_source_normalize_fallback (db : SourceDB)
    (rawURL sourceType pageType : String) (isAlias : Bool) (canonicalURL : String)
    (isJobSite techRelated : Bool) (confidence : ℚ) (reason : String)
    (hfail : Normalize rawURL = none) :
    (db.find? (fun r => r.normalizedURL = rawURL ∨ r.url = rawURL) = none →
      AddSource db rawURL sourceType pageType isAlias canonicalURL isJobSite techRelated
          confidence reason =
        (db.length + 1, false,
          db ++ [{ id := db.length + 1, url := rawURL, normalizedURL := rawURL, host := "",
                   srcType := sourceType,
                   pageType := (if pageType = "" then PageTypeNonJob else pageType),
                   isAlias := isAlias, canonicalURL := canonicalURL, isJobSite := isJobSite,
                   techRelated := techRelated, confidence := confidence, reason := reason }])) ∧
    (∀ r, db.find? (fun r => r.normalizedURL = rawURL ∨ r.url = rawURL) = some r →
      AddSource db rawURL sourceType pageType isAlias canonicalURL isJobSite techRelated
          confidence reason =
        (r.id, true,
          db.map fun row => if row.id = r.id then
            { row with url := rawURL, normalizedURL := rawURL, host := "",
                       srcType := sourceType,
                       pageType := (if pageType = "" then PageTypeNonJob else pageType),
                       isAlias := isAlias, canonicalURL := canonicalURL,
                       isJobSite := isJobSite, techRelated := techRelated,
                       confidence := confidence, reason := reason }
            else row)) := by
  constructor
  · intro hnone
    unfold AddSource
    rw [hfail]
    simp only [hnone]
  · intro r hr
    unfold AddSource
    rw [hfail]
    simp only [hr]

/-- C10 witness: `Normalize` fails on a colon-free string, and
`AddSource` on an empty table still inserts the row keyed on the raw
string with an empty host. -/
theorem add_source_normalize_fallback_witness :
    Normalize "not a url" = none ∧
    AddSource [] "not a url" "unknown" "candidate" false "" false false 0 "r" =
      (1, false,
        [{ id := 1, url := "not a url", normalizedURL := "not a url", host := "",
           srcType := "unknown", pageType := (if "candidate" = "" then PageTypeNonJob else "candidate"),
           isAlias := false, canonicalURL := "", isJobSite := false,
           techRelated := false, confidence := 0, reason := "r" }]) := by
  refine ⟨by rfl, ?_⟩
  exact (add_source_normalize_fallback [] "not a url" "unknown" "candidate" false "" false false
      0 "r" (by rfl)).1 (by rfl)

/-! ### Character lemmas -/

theorem char_toNat_ofNat {n : Nat} (h : n < 55296) : (Char.ofNat n).toNat = n := by
  have hv : n.isValidChar := Or.inl h
  simp [Char.ofNat, hv, Char.toNat, Char.ofNatAux, UInt32.toNat, UInt32.ofNatTruncate]

theorem char_le_iff {a b : Char} : (a ≤ b) ↔ a.toNat ≤ b.toNat := Iff.rfl

theorem char_eq_of_toNat {a b : Char} (h : a.toNat = b.toNat) : a = b := by
  have := congrArg Char.ofNat h
  rwa [Char.ofNat_toNat, Char.ofNat_toNat] at this

theorem lowerChar_upper {c : Char} (h : 'A' ≤ c ∧ c ≤ 'Z') :
    (lowerChar c).toNat = c.toNat + 32 := by
  have h1 : 65 ≤ c.toNat := char_le_iff.mp h.1
  have h2 : c.toNat ≤ 90 := char_le_iff.mp h.2
  rw [lowerChar, if_pos h]
  exact char_toNat_ofNat (by omega)

theorem lowerChar_eq_self {c : Char} (h : ¬('A' ≤ c ∧ c ≤ 'Z')) : lowerChar c = c :=
  if_neg h

theorem lowerChar_lower {c : Char} (h : 'A' ≤ c ∧ c ≤ 'Z') :
    'a' ≤ lowerChar c ∧ lowerChar c ≤ 'z' := by
  have h1 : 65 ≤ c.toNat := char_le_iff.mp h.1
  have h2 : c.toNat ≤ 90 := char_le_iff.mp h.2
  have := lowerChar_upper h
  have ha : 'a'.toNat = 97 := rfl
  have hz : 'z'.toNat = 122 := rfl
  constructor
  · rw [char_le_iff, ha]
    omega
  · rw [char_le_iff, hz]
    omega

theorem lowerChar_idem (c : Char) : lowerChar (lowerChar c) = lowerChar c := by
  by_cases h : 'A' ≤ c ∧ c ≤ 'Z'
  · refine lowerChar_eq_self ?_
    rintro ⟨hA, hZ⟩
    have h1 := char_le_iff.mp (lowerChar_lower h).1
    have h2 := char_le_iff.mp hZ
    have ha : 'a'.toNat = 97 := rfl
    have hZ90 : 'Z'.toNat = 90 := rfl
    rw [ha] at h1
    rw [hZ90] at h2
    omega
  · rw [lowerChar_eq_self h, lowerChar_eq_self h]

theorem goToLower_idem (s : LC) : goToLower (goToLower s) = goToLower s := by
  unfold goToLower
  rw [List.map_map]
  exact List.map_congr_left (fun c _ => lowerChar_idem c)

theorem lowerChar_eq_of_nonletter {c x : Char} (hx : ¬('a' ≤ x ∧ x ≤ 'z'))
    (h : lowerChar c = x) : c = x := by
  by_cases hc : 'A' ≤ c ∧ c ≤ 'Z'
  · exact absurd (h ▸ lowerChar_lower hc) hx
  · rwa [lowerChar_eq_self hc] at h

theorem lowerChar_isHostChar {c : Char} (h : isHostChar c = true) :
    isHostChar (lowerChar c) = true := by
  by_cases hc : 'A' ≤ c ∧ c ≤ 'Z'
  · have := lowerChar_lower hc
    simp [isHostChar, isAlnumChar, this.1, this.2]
  · rwa [lowerChar_eq_self hc]

theorem lowerChar_isPathChar {c : Char} (h : isPathChar c = true) :
    isPathChar (lowerChar c) = true := by
  by_cases hc : 'A' ≤ c ∧ c ≤ 'Z'
  · have := lowerChar_lower hc
    simp [isPathChar, isAlnumChar, this.1, this.2]
  · rwa [lowerChar_eq_self hc]

/-! ### splitOnChar / joinChar / cutChar lemmas -/

theorem splitOnChar_not_mem {c : Char} : ∀ {l : LC}, c ∉ l → splitOnChar c l = [l]
  | [], _ => rfl
  | a :: t, h => by
    rw [splitOnChar, if_neg (by rintro rfl; exact h (List.mem_cons_self a t)),
      splitOnChar_not_mem (fun hm => h (List.mem_cons_of_mem a hm))]

theorem splitOnChar_sep {c : Char} {b : LC} :
    ∀ {a : LC}, c ∉ a → splitOnChar c (a ++ c :: b) = a :: splitOnChar c b
  | [], _ => by simp [splitOnChar]
  | x :: t, h => by
    rw [List.cons_append, splitOnChar,
      if_neg (by rintro rfl; exact h (List.mem_cons_self x t)),
      splitOnChar_sep (fun hm => h (List.mem_cons_of_mem x hm))]

theorem splitOnChar_join {c : Char} :
    ∀ {parts : List LC}, parts ≠ [] → (∀ p ∈ parts, c ∉ p) →
      splitOnChar c (joinChar c parts) = parts
  | [], h, _ => absurd rfl h
  | [p], _, hp => by
    rw [joinChar]
    exact splitOnChar_not_mem (hp p (List.mem_cons_self p []))
  | p :: q :: rest, _, hp => by
    rw [show joinChar c (p :: q :: rest) = p ++ c :: joinChar c (q :: rest) from rfl,
      splitOnChar_sep (hp p (List.mem_cons_self p _)),
      splitOnChar_join (by simp) (fun r hr => hp r (List.mem_cons_of_mem p hr))]

theorem splitOnChar_parts_not_mem {c : Char} :
    ∀ {l : LC}, ∀ p ∈ splitOnChar c l, c ∉ p
  | [], p, hp => by
    simp only [splitOnChar, List.mem_singleton] at hp
    simp [hp]
  | a :: t, p, hp => by
    rw [splitOnChar] at hp
    split at hp
    · rcases List.mem_cons.mp hp with rfl | hm
      · simp
      · exact splitOnChar_parts_not_mem p hm
    · rename_i hne
      rcases hs : splitOnChar c t with _ | ⟨q, qs⟩
      · rw [hs] at hp
        simp only [List.mem_singleton] at hp
        subst hp
        simp only [List.mem_singleton]
        rintro rfl
        exact hne rfl
      · rw [hs] at hp
        rcases List.mem_cons.mp hp with rfl | hm
        · intro hmem
          rcases List.mem_cons.mp hmem with rfl | hm2
          · exact hne rfl
          · exact splitOnChar_parts_not_mem q (hs ▸ List.mem_cons_self q qs) hm2
        · exact splitOnChar_parts_not_mem p (hs ▸ List.mem_cons_of_mem q hm)

theorem mem_of_mem_splitOnChar {c : Char} :
    ∀ {l : LC} {p : LC}, p ∈ splitOnChar c l → ∀ x ∈ p, x ∈ l
  | [], p, hp => by
    simp only [splitOnChar, List.mem_singleton] at hp
    subst hp
    intro x hx
    exact hx
  | a :: t, p, hp => by
    rw [splitOnChar] at hp
    intro x hx
    split at hp
    · rcases List.mem_cons.mp hp with rfl | hm
      · cases hx
      · exact List.mem_cons_of_mem a (mem_of_mem_splitOnChar hm x hx)
    · rcases hs : splitOnChar c t with _ | ⟨q, qs⟩
      · rw [hs] at hp
        simp only [List.mem_singleton] at hp
        subst hp
        simp only [List.mem_singleton] at hx
        simp [hx]
      · rw [hs] at hp
        rcases List.mem_cons.mp hp with rfl | hm
        · rcases List.mem_cons.mp hx with rfl | hm2
          · exact List.mem_cons_self x t
          · exact List.mem_cons_of_mem a
              (mem_of_mem_splitOnChar (hs ▸ List.mem_cons_self q qs) x hm2)
        · exact List.mem_cons_of_mem a
            (mem_of_mem_splitOnChar (hs ▸ List.mem_cons_of_mem q hm) x hx)

theorem mem_of_mem_joinChar {c x : Char} :
    ∀ {parts : List LC}, x ∈ joinChar c parts → x = c ∨ ∃ p ∈ parts, x ∈ p
  | [], h => by cases h
  | [p], h => by
    rw [joinChar] at h
    exact Or.inr ⟨p, List.mem_cons_self p [], h⟩
  | p :: q :: rest, h => by
    rw [show joinChar c (p :: q :: rest) = p ++ c :: joinChar c (q :: rest) from rfl] at h
    rcases List.mem_append.mp h with hm | hm
    · exact Or.inr ⟨p, List.mem_cons_self p _, hm⟩
    · rcases List.mem_cons.mp hm with rfl | hm2
      · exact Or.inl rfl
      · rcases mem_of_mem_joinChar hm2 with h1 | ⟨r, hr, hxr⟩
        · exact Or.inl h1
        · exact Or.inr ⟨r, List.mem_cons_of_mem p hr, hxr⟩

theorem joinChar_ne_nil {c : Char} {p : LC} {rest : List LC} (hp : p ≠ []) :
    joinChar c (p :: rest) ≠ [] := by
  cases rest with
  | nil => rw [joinChar]; exact hp
  | cons q qs =>
    rw [show joinChar c (p :: q :: qs) = p ++ c :: joinChar c (q :: qs) from rfl]
    intro h
    rcases List.append_eq_nil.mp h with ⟨h1, h2⟩
    cases h2

theorem joinChar_head? {c : Char} {p : LC} {rest : List LC} (hp : p ≠ []) :
    (joinChar c (p :: rest)).head? = p.head? := by
  cases rest with
  | nil => rw [joinChar]
  | cons q qs =>
    rw [show joinChar c (p :: q :: qs) = p ++ c :: joinChar c (q :: qs) from rfl]
    cases p with
    | nil => exact absurd rfl hp
    | cons a t => rfl

theorem cutChar_not_mem {c : Char} : ∀ {l : LC}, c ∉ l → cutChar c l = none
  | [], _ => rfl
  | a :: t, h => by
    rw [cutChar, if_neg (by rintro rfl; exact h (List.mem_cons_self a t)),
      cutChar_not_mem (fun hm => h (List.mem_cons_of_mem a hm))]
    rfl

theorem cutChar_sep {c : Char} {b : LC} :
    ∀ {a : LC}, c ∉ a → cutChar c (a ++ c :: b) = some (a, b)
  | [], _ => by simp [cutChar]
  | x :: t, h => by
    rw [List.cons_append, cutChar,
      if_neg (by rintro rfl; exact h (List.mem_cons_self x t)),
      cutChar_sep (fun hm => h (List.mem_cons_of_mem x hm))]
    rfl

theorem trimLeadChar_of_head {c : Char} {l : LC} (h : l.head? ≠ some c) :
    trimLeadChar c l = l := by
  cases l with
  | nil => rfl
  | cons a t =>
    rw [trimLeadChar, if_neg]
    intro hac
    exact h (by rw [hac]; rfl)

theorem getLast?_mem_of_eq {l : LC} {a : Char} (h : l.getLast? = some a) : a ∈ l := by
  rcases List.mem_getLast?_eq_getLast (show a ∈ l.getLast? from h ▸ rfl) with ⟨hne, heq⟩
  exact heq ▸ List.getLast_mem hne

theorem joinChar_getLast_ne {c : Char} :
    ∀ {parts : List LC}, (∀ p ∈ parts, p ≠ [] ∧ c ∉ p) →
      ∀ x, (joinChar c parts).getLast? = some x → x ≠ c
  | [], _, x, hx => by cases hx
  | [p], hp, x, hx => by
    rw [joinChar] at hx
    exact fun hxc => (hp p (List.mem_cons_self p [])).2 (hxc ▸ getLast?_mem_of_eq hx)
  | p :: q :: rest, hp, x, hx => by
    rw [show joinChar c (p :: q :: rest) = p ++ c :: joinChar c (q :: rest) from rfl] at hx
    rw [List.getLast?_append_of_ne_nil p (by simp)] at hx
    have hq : joinChar c (q :: rest) ≠ [] :=
      joinChar_ne_nil (hp q (List.mem_cons_of_mem p (List.mem_cons_self q rest))).1
    rcases hj : joinChar c (q :: rest) with _ | ⟨y, ys⟩
    · exact absurd hj hq
    · rw [hj, List.getLast?_cons_cons] at hx
      exact joinChar_getLast_ne (fun r hr => hp r (List.mem_cons_of_mem p hr)) x (hj ▸ hx)

theorem hasSuffix_single_false {c : Char} {l : LC}
    (h : ∀ x, l.getLast? = some x → x ≠ c) : hasSuffixLC [c] l = false := by
  unfold hasSuffixLC List.isSuffixOf
  rcases hr : l.reverse with _ | ⟨x, t⟩
  · rfl
  · have hx : l.getLast? = some x := by
      rw [← List.head?_reverse, hr]
      rfl
    simp only [List.isPrefixOf, List.reverse_cons]
    have hne : (c == x) = false := by
      simp only [beq_eq_false_iff_ne, ne_eq]
      intro hcx
      exact h x hx hcx.symm
    simp [hne]

/-! ### pathClean / normalizePath lemmas -/

theorem cleanPush_true_push {s : LC} (h1 : s ≠ []) (h2 : s ≠ ['.']) (h3 : s ≠ ['.', '.'])
    (acc : List LC) : cleanPush true acc s = s :: acc := by
  unfold cleanPush
  rw [if_neg (by simp [h1, h2]), if_neg h3]

theorem foldl_cleanPush_pres (P : LC → Prop) :
    ∀ (segs : List LC) (acc : List LC), (∀ s ∈ acc, P s) →
      (∀ s ∈ segs, s ≠ [] → s ≠ ['.'] → s ≠ ['.', '.'] → P s) →
      ∀ s ∈ segs.foldl (cleanPush true) acc, P s
  | [], acc, hacc, _ => hacc
  | seg :: rest, acc, hacc, hsegs => by
    rw [List.foldl_cons]
    refine foldl_cleanPush_pres P rest (cleanPush true acc seg) ?_
      (fun s hs => hsegs s (List.mem_cons_of_mem seg hs))
    intro s hs
    unfold cleanPush at hs
    split at hs
    · exact hacc s hs
    · split at hs
      · exact hacc s (List.mem_of_mem_tail hs)
      · rcases List.mem_cons.mp hs with rfl | hm
        · exact hsegs s (List.mem_cons_self s rest) (by rename_i hng _; simp at hng; exact hng.1)
            (by rename_i hng _; simp at hng; exact hng.2) (by rename_i hne; exact hne)
        · exact hacc s hm

theorem cleanSegs_output_good (segs : List LC) :
    ∀ s ∈ cleanSegs true segs, (s ≠ [] ∧ s ≠ ['.'] ∧ s ≠ ['.', '.']) ∧ s ∈ segs := by
  intro s hs
  unfold cleanSegs at hs
  rw [List.mem_reverse] at hs
  exact foldl_cleanPush_pres
    (fun s => (s ≠ [] ∧ s ≠ ['.'] ∧ s ≠ ['.', '.']) ∧ s ∈ segs)
    segs [] (by simp) (fun t ht h1 h2 h3 => ⟨⟨h1, h2, h3⟩, ht⟩) s hs

theorem foldl_cleanPush_id :
    ∀ (segs : List LC), (∀ s ∈ segs, s ≠ [] ∧ s ≠ ['.'] ∧ s ≠ ['.', '.']) →
      ∀ (acc : List LC), segs.foldl (cleanPush true) acc = segs.reverse ++ acc
  | [], _, acc => by simp
  | seg :: rest, h, acc => by
    rw [List.foldl_cons,
      cleanPush_true_push (h seg (List.mem_cons_self seg rest)).1
        (h seg (List.mem_cons_self seg rest)).2.1
        (h seg (List.mem_cons_self seg rest)).2.2 acc,
      foldl_cleanPush_id rest (fun s hs => h s (List.mem_cons_of_mem seg hs)) (seg :: acc)]
    simp

theorem cleanSegs_id (segs : List LC)
    (h : ∀ s ∈ segs, s ≠ [] ∧ s ≠ ['.'] ∧ s ≠ ['.', '.']) :
    cleanSegs true segs = segs := by
  unfold cleanSegs
  rw [foldl_cleanPush_id segs h []]
  simp

theorem cleanSegs_cons_nil (segs : List LC) :
    cleanSegs true ([] :: segs) = cleanSegs true segs := rfl

theorem pathClean_rooted {p : LC} (hh : p.head? = some '/') :
    pathClean p =
      (if cleanSegs true (splitOnChar '/' p) = [] then ['/']
       else '/' :: joinChar '/' (cleanSegs true (splitOnChar '/' p))) := by
  have hne : p ≠ [] := by cases p with | nil => cases hh | cons a t => simp
  unfold pathClean
  rw [if_neg hne]
  simp only [hh]
  simp

theorem joinChar_slash_getLast_ne {out : List LC} (hne : out ≠ [])
    (hgood : ∀ s ∈ out, s ≠ [] ∧ '/' ∉ s) :
    ∀ x, ('/' :: joinChar '/' out).getLast? = some x → x ≠ '/' := by
  intro x hx
  rcases out with _ | ⟨p0, rest⟩
  · exact absurd rfl hne
  · have hjne : joinChar '/' (p0 :: rest) ≠ [] :=
      joinChar_ne_nil (hgood p0 (List.mem_cons_self p0 rest)).1
    rcases hj : joinChar '/' (p0 :: rest) with _ | ⟨y, ys⟩
    · exact absurd hj hjne
    · rw [hj, List.getLast?_cons_cons] at hx
      exact joinChar_getLast_ne hgood x (hj ▸ hx)

theorem normalizePath_canonical {out : List LC} (hne : out ≠ [])
    (hgood : ∀ s ∈ out, s ≠ [] ∧ '/' ∉ s ∧ s ≠ ['.'] ∧ s ≠ ['.', '.']) :
    normalizePath ('/' :: joinChar '/' out) = '/' :: joinChar '/' out := by
  have hsplit : splitOnChar '/' ('/' :: joinChar '/' out) = [] :: out := by
    rw [show ('/' :: joinChar '/' out : LC) = [] ++ '/' :: joinChar '/' out from rfl,
      splitOnChar_sep (by simp), splitOnChar_join hne (fun q hq => (hgood q hq).2.1)]
  have hclean : cleanSegs true (splitOnChar '/' ('/' :: joinChar '/' out)) = out := by
    rw [hsplit, cleanSegs_cons_nil]
    exact cleanSegs_id out (fun s hs => ⟨(hgood s hs).1, (hgood s hs).2.2.1, (hgood s hs).2.2.2⟩)
  have hsuf : hasSuffixLC ['/'] ('/' :: joinChar '/' out) = false :=
    hasSuffix_single_false (joinChar_slash_getLast_ne hne
      (fun s hs => ⟨(hgood s hs).1, (hgood s hs).2.1⟩))
  unfold normalizePath
  rw [if_neg (by simp), @pathClean_rooted ('/' :: joinChar '/' out) rfl, hclean, if_neg hne,
    if_neg (show ¬('/' :: joinChar '/' out : LC) = ['.'] by
      intro h
      rcases out with _ | ⟨p0, rest⟩
      · exact hne rfl
      · have := List.cons.injEq '/' (joinChar '/' (p0 :: rest)) '.' [] ▸ h
        simp at h),
    if_neg (by simp [hsuf])]

theorem normalizePath_root : normalizePath ['/'] = ['/'] := by decide

theorem normalizePath_shape {p : LC} (hsh : p = [] ∨ p.head? = some '/') :
    normalizePath p = ['/'] ∨
    ∃ out, out ≠ [] ∧
      (∀ s ∈ out, s ≠ [] ∧ '/' ∉ s ∧ s ≠ ['.'] ∧ s ≠ ['.', '.'] ∧ s ∈ splitOnChar '/' p) ∧
      normalizePath p = '/' :: joinChar '/' out := by
  rcases hsh with rfl | hh
  · exact Or.inl rfl
  · have hne : p ≠ [] := by cases p with | nil => cases hh | cons a t => simp
    have hgood : ∀ s ∈ cleanSegs true (splitOnChar '/' p),
        s ≠ [] ∧ '/' ∉ s ∧ s ≠ ['.'] ∧ s ≠ ['.', '.'] ∧ s ∈ splitOnChar '/' p := by
      intro s hs
      have h1 := cleanSegs_output_good (splitOnChar '/' p) s hs
      exact ⟨h1.1.1, splitOnChar_parts_not_mem s h1.2, h1.1.2.1, h1.1.2.2, h1.2⟩
    by_cases hout : cleanSegs true (splitOnChar '/' p) = []
    · left
      unfold normalizePath
      rw [if_neg hne, pathClean_rooted hh, if_pos hout]
      simp
    · right
      refine ⟨cleanSegs true (splitOnChar '/' p), hout, hgood, ?_⟩
      have hsuf : hasSuffixLC ['/'] ('/' :: joinChar '/' (cleanSegs true (splitOnChar '/' p))) = false :=
        hasSuffix_single_false (joinChar_slash_getLast_ne hout
          (fun s hs => ⟨(hgood s hs).1, (hgood s hs).2.1⟩))
      unfold normalizePath
      rw [if_neg hne, pathClean_rooted hh, if_neg hout,
        if_neg (show ¬('/' :: joinChar '/' (cleanSegs true (splitOnChar '/' p)) : LC) = ['.'] by
          simp),
        if_neg (by simp [hsuf])]

/-! ### splitPath / stripLocalePref lemmas -/

theorem splitPath_canonical {out : List LC} (hne : out ≠ [])
    (hgood : ∀ s ∈ out, s ≠ [] ∧ '/' ∉ s) :
    splitPath ('/' :: joinChar '/' out) = out.map goToLower := by
  rcases out with _ | ⟨p0, rest⟩
  · exact absurd rfl hne
  have hp0 := hgood p0 (List.mem_cons_self p0 rest)
  have hjne : joinChar '/' (p0 :: rest) ≠ [] := joinChar_ne_nil hp0.1
  have hjoinhead : (joinChar '/' (p0 :: rest)).head? ≠ some '/' := by
    rw [joinChar_head? hp0.1]
    rcases hp : p0 with _ | ⟨c0, t0⟩
    · exact absurd hp hp0.1
    · simp only [List.head?]
      intro hc
      have : c0 = '/' := by injection hc
      exact hp0.2 (hp ▸ this ▸ List.mem_cons_self c0 t0)
  have htrim : trimCharBoth '/' ('/' :: joinChar '/' (p0 :: rest)) = joinChar '/' (p0 :: rest) := by
    unfold trimCharBoth
    rw [show trimLeadChar '/' ('/' :: joinChar '/' (p0 :: rest)) =
        trimLeadChar '/' (joinChar '/' (p0 :: rest)) by rw [trimLeadChar, if_pos rfl]]
    rw [trimLeadChar_of_head hjoinhead]
    rw [trimLeadChar_of_head (by
      rw [List.head?_reverse]
      intro hl
      exact joinChar_getLast_ne (fun s hs => hgood s hs) '/' hl rfl)]
    simp
  unfold splitPath
  rw [htrim, if_neg hjne,
    splitOnChar_join (by simp) (fun q hq => (hgood q hq).2)]

theorem splitPath_root : splitPath ['/'] = [] := by decide

theorem isLocale_of_career_false {s : LC}
    (h : isCareerRootSegment s = true ∨ isJobListSegment s = true) : isLocale s = false := by
  rcases h with h | h
  · have hm : s ∈ careerRoots := by
      unfold isCareerRootSegment at h
      simpa using h
    fin_cases hm <;> decide
  · have hm : s ∈ jobListSegments := by
      unfold isJobListSegment at h
      simpa using h
    fin_cases hm <;> decide

theorem lowered_seg_good {s : LC} (h : s ≠ [] ∧ '/' ∉ s ∧ s ≠ ['.'] ∧ s ≠ ['.', '.']) :
    goToLower s ≠ [] ∧ '/' ∉ goToLower s ∧ goToLower s ≠ ['.'] ∧ goToLower s ≠ ['.', '.'] := by
  refine ⟨by simpa [goToLower] using h.1, ?_, ?_, ?_⟩
  · intro hm
    rcases List.mem_map.mp hm with ⟨y, hy, hly⟩
    exact h.2.1 ((lowerChar_eq_of_nonletter (by decide) hly) ▸ hy)
  · intro he
    rcases s with _ | ⟨c, t⟩
    · exact h.1 rfl
    · simp only [goToLower, List.map_cons, List.cons.injEq] at he
      rcases t with _ | ⟨c2, t2⟩
      · exact h.2.2.1 (by
          rw [show c = '.' from lowerChar_eq_of_nonletter (by decide) he.1])
      · simp at he
  · intro he
    rcases s with _ | ⟨c, t⟩
    · exact h.1 rfl
    · simp only [goToLower, List.map_cons, List.cons.injEq] at he
      rcases t with _ | ⟨c2, t2⟩
      · simp at he
      · rcases t2 with _ | ⟨c3, t3⟩
        · simp only [List.map_cons, List.map_nil, List.cons.injEq, and_true] at he
          refine h.2.2.2 ?_
          rw [show c = '.' from lowerChar_eq_of_nonletter (by decide) he.1,
            show c2 = '.' from lowerChar_eq_of_nonletter (by decide) he.2]
        · simp at he

theorem goToLower_fixed_of_map {out : List LC} :
    ∀ s ∈ out.map goToLower, goToLower s = s := by
  intro s hs
  rcases List.mem_map.mp hs with ⟨y, _, rfl⟩
  exact goToLower_idem y

theorem stripLocale_canonical_cases {out : List LC} (hne : out ≠ [])
    (hgood : ∀ s ∈ out, s ≠ [] ∧ '/' ∉ s) :
    stripLocalePref ('/' :: joinChar '/' out) = '/' :: joinChar '/' out ∨
    ∃ p0 p1 rest, out = p0 :: p1 :: rest ∧
      isLocale (goToLower p0) = true ∧
      (isCareerRootSegment (goToLower p1) = true ∨ isJobListSegment (goToLower p1) = true) ∧
      stripLocalePref ('/' :: joinChar '/' out) =
        '/' :: joinChar '/' (goToLower p1 :: rest.map goToLower) := by
  have hsp := splitPath_canonical hne hgood
  unfold stripLocalePref
  rw [hsp]
  rcases out with _ | ⟨p0, rest0⟩
  · exact absurd rfl hne
  rcases rest0 with _ | ⟨p1, rest⟩
  · left; rfl
  simp only [List.map_cons]
  by_cases hloc : isLocale (goToLower p0)
  · rw [if_neg (by simpa using hloc)]
    by_cases hc : isCareerRootSegment (goToLower p1) = true ∨ isJobListSegment (goToLower p1) = true
    · rw [if_pos (by simpa using hc)]
      exact Or.inr ⟨p0, p1, rest, rfl, hloc, hc, rfl⟩
    · rw [if_neg (by simpa using hc)]
      exact Or.inl rfl
  · rw [if_pos (by simpa using hloc)]
    exact Or.inl rfl

theorem stripLocale_root : stripLocalePref ['/'] = ['/'] := by decide

theorem pathPipeline_stable {p : LC} (hsh : p = [] ∨ p.head? = some '/') :
    normalizePath (stripLocalePref (normalizePath p)) = stripLocalePref (normalizePath p) ∧
    stripLocalePref (stripLocalePref (normalizePath p)) = stripLocalePref (normalizePath p) := by
  rcases normalizePath_shape hsh with hq | ⟨out, hne, hgood, hq⟩
  · rw [hq, stripLocale_root]
    exact ⟨normalizePath_root, stripLocale_root⟩
  · rw [hq]
    have hgood2 : ∀ s ∈ out, s ≠ [] ∧ '/' ∉ s :=
      fun s hs => ⟨(hgood s hs).1, (hgood s hs).2.1⟩
    have hgood4 : ∀ s ∈ out, s ≠ [] ∧ '/' ∉ s ∧ s ≠ ['.'] ∧ s ≠ ['.', '.'] :=
      fun s hs => ⟨(hgood s hs).1, (hgood s hs).2.1, (hgood s hs).2.2.1, (hgood s hs).2.2.2.1⟩
    rcases stripLocale_canonical_cases hne hgood2 with hs | ⟨p0, p1, rest, rfl, hloc, hcar, hs⟩
    · rw [hs]
      exact ⟨normalizePath_canonical hne hgood4, hs⟩
    · rw [hs]
      have hmem1 : ∀ s ∈ goToLower p1 :: rest.map goToLower,
          s ∈ (p1 :: rest).map goToLower := by
        intro s hs2
        simpa using hs2
      have hgood1 : ∀ s ∈ goToLower p1 :: rest.map goToLower,
          s ≠ [] ∧ '/' ∉ s ∧ s ≠ ['.'] ∧ s ≠ ['.', '.'] := by
        intro s hs2
        rcases List.mem_map.mp (hmem1 s hs2) with ⟨y, hy, rfl⟩
        exact lowered_seg_good (hgood4 y (List.mem_cons_of_mem p0 hy))
      refine ⟨normalizePath_canonical (by simp) hgood1, ?_⟩
      rcases @stripLocale_canonical_cases (goToLower p1 :: rest.map goToLower)
          (by simp) (fun s hs2 => ⟨(hgood1 s hs2).1, (hgood1 s hs2).2.1⟩) with
        hs2 | ⟨a0, a1, ar, heq, hloc2, _, _⟩
      · exact hs2
      · exfalso
        have ha0 : a0 = goToLower p1 := by
          have := congrArg List.head? heq
          simpa using this.symm
        rw [ha0, goToLower_idem] at hloc2
        rw [isLocale_of_career_false hcar] at hloc2
        cases hloc2

/-! ### Query escape/unescape lemmas -/

theorem hexRound : ∀ n, n < 16 → hexVal (hexDigitChar n) = some n := by decide

theorem isUnreservedQueryChar_lt {c : Char} (h : isUnreservedQueryChar c = true) :
    c.toNat < 256 := by
  simp only [isUnreservedQueryChar, decide_eq_true_eq] at h
  rcases h with ⟨h1, h2⟩ | ⟨h1, h2⟩ | ⟨h1, h2⟩ | rfl | rfl | rfl | rfl
  · have := char_le_iff.mp h2
    have hz : 'Z'.toNat = 90 := rfl
    omega
  · have := char_le_iff.mp h2
    have hz : 'z'.toNat = 122 := rfl
    omega
  · have := char_le_iff.mp h2
    have hz : '9'.toNat = 57 := rfl
    omega
  all_goals decide

theorem isQueryChar_lt {c : Char} (h : isQueryChar c = true) : c.toNat < 256 := by
  simp only [isQueryChar, isAlnumChar, decide_eq_true_eq] at h
  rcases h with (⟨h1, h2⟩ | ⟨h1, h2⟩ | ⟨h1, h2⟩) | rfl | rfl | rfl | rfl | rfl | rfl | rfl | rfl
  · have := char_le_iff.mp h2
    have hz : 'Z'.toNat = 90 := rfl
    omega
  · have := char_le_iff.mp h2
    have hz : 'z'.toNat = 122 := rfl
    omega
  · have := char_le_iff.mp h2
    have hz : '9'.toNat = 57 := rfl
    omega
  all_goals decide

theorem queryUnescape_cons_plain {c : Char} (hcp : c ≠ '%') (hcplus : c ≠ '+') (l : LC) :
    queryUnescape (c :: l) = (queryUnescape l).map (c :: ·) := by
  rw [queryUnescape]
  · exact fun h => hcp h
  · exact fun h => hcplus h

theorem queryUnescape_escape : ∀ {s : LC}, (∀ c ∈ s, c.toNat < 256) →
    queryUnescape (queryEscape s) = some s
  | [], _ => rfl
  | c :: t, h => by
    have ht : ∀ x ∈ t, x.toNat < 256 := fun x hx => h x (List.mem_cons_of_mem c hx)
    have hc : c.toNat < 256 := h c (List.mem_cons_self c t)
    show queryUnescape (queryEscape (c :: t)) = some (c :: t)
    rw [show queryEscape (c :: t) =
        (if isUnreservedQueryChar c then [c]
         else if c = ' ' then ['+']
         else ['%', hexDigitChar (c.toNat / 16), hexDigitChar (c.toNat % 16)]) ++ queryEscape t
      from rfl]
    by_cases hu : isUnreservedQueryChar c
    · rw [if_pos hu]
      have hcp : c ≠ '%' := by
        rintro rfl
        exact absurd hu (by decide)
      have hcplus : c ≠ '+' := by
        rintro rfl
        exact absurd hu (by decide)
      rw [List.singleton_append, queryUnescape_cons_plain hcp hcplus,
        queryUnescape_escape ht]
      rfl
    · rw [if_neg hu]
      by_cases hsp : c = ' '
      · rw [if_pos hsp]
        rw [List.singleton_append, queryUnescape]
        rw [queryUnescape_escape ht]
        subst hsp
        rfl
      · rw [if_neg hsp]
        have hdiv : c.toNat / 16 < 16 := by omega
        have hmod : c.toNat % 16 < 16 := by omega
        rw [show (['%', hexDigitChar (c.toNat / 16), hexDigitChar (c.toNat % 16)] ++
            queryEscape t : LC) =
          '%' :: hexDigitChar (c.toNat / 16) :: hexDigitChar (c.toNat % 16) ::
            queryEscape t from rfl]
        rw [queryUnescape]
        show (match hexVal (hexDigitChar (c.toNat / 16)), hexVal (hexDigitChar (c.toNat % 16)) with
           | some hv, some lv =>
             (queryUnescape (queryEscape t)).map (Char.ofNat (16 * hv + lv) :: ·)
           | _, _ => none) = some (c :: t)
        rw [hexRound _ hdiv, hexRound _ hmod, queryUnescape_escape ht]
        show some (Char.ofNat (16 * (c.toNat / 16) + c.toNat % 16) :: t) = some (c :: t)
        have h16 : 16 * (c.toNat / 16) + c.toNat % 16 = c.toNat := by omega
        rw [h16, Char.ofNat_toNat]

theorem hexDigitChar_facts : ∀ n, n < 16 →
    isQueryChar (hexDigitChar n) = true ∧ hexDigitChar n ≠ '&' ∧
    hexDigitChar n ≠ '=' ∧ hexDigitChar n ≠ ';' := by decide

theorem unreserved_isQueryChar {c : Char} (h : isUnreservedQueryChar c = true) :
    isQueryChar c = true := by
  simp only [isUnreservedQueryChar, decide_eq_true_eq] at h
  simp only [isQueryChar, isAlnumChar, decide_eq_true_eq]
  tauto

theorem mem_queryEscape {s : LC} (hs : ∀ c ∈ s, c.toNat < 256) :
    ∀ x ∈ queryEscape s,
      isQueryChar x = true ∧ x ≠ '&' ∧ x ≠ '=' ∧ x ≠ ';' := by
  intro x hx
  unfold queryEscape at hx
  rcases List.mem_flatMap.mp hx with ⟨c, hc, hxc⟩
  by_cases hu : isUnreservedQueryChar c
  · rw [if_pos hu] at hxc
    rcases List.mem_singleton.mp hxc with rfl
    refine ⟨unreserved_isQueryChar hu, ?_, ?_, ?_⟩ <;>
      (rintro rfl; exact absurd hu (by decide))
  · rw [if_neg hu] at hxc
    by_cases hsp : c = ' '
    · rw [if_pos hsp] at hxc
      rcases List.mem_singleton.mp hxc with rfl
      refine ⟨by decide, by decide, by decide, by decide⟩
    · rw [if_neg hsp] at hxc
      have hb := hs c hc
      have hdiv : c.toNat / 16 < 16 := by omega
      have hmod : c.toNat % 16 < 16 := by omega
      rcases List.mem_cons.mp hxc with rfl | hm
      · exact ⟨by decide, by decide, by decide, by decide⟩
      · rcases List.mem_cons.mp hm with rfl | hm2
        · exact hexDigitChar_facts _ hdiv
        · rcases List.mem_cons.mp hm2 with rfl | hm3
          · exact hexDigitChar_facts _ hmod
          · cases hm3

theorem cutChar_mem {c : Char} :
    ∀ {l a b : LC}, cutChar c l = some (a, b) →
      (∀ x ∈ a, x ∈ l) ∧ (∀ x ∈ b, x ∈ l)
  | [], a, b, h => by cases h
  | y :: t, a, b, h => by
    rw [cutChar] at h
    split at h
    · rename_i hyc
      injection h with h1
      injection h1 with ha hb
      subst ha; subst hb
      refine ⟨fun x hx => ?_, fun x hx => List.mem_cons_of_mem y hx⟩
      cases hx
    · rcases hc : cutChar c t with _ | ⟨p, q⟩
      · rw [hc] at h; cases h
      · rw [hc] at h
        injection h with h1
        injection h1 with ha hb
        subst ha; subst hb
        have hmm := cutChar_mem hc
        refine ⟨?_, fun x hx => List.mem_cons_of_mem y (hmm.2 x hx)⟩
        intro x hx
        rcases List.mem_cons.mp hx with rfl | hm
        · exact List.mem_cons_self x t
        · exact List.mem_cons_of_mem y (hmm.1 x hm)

theorem hexVal_lt {c : Char} {n : Nat} (h : hexVal c = some n) : n < 16 := by
  unfold hexVal at h
  split_ifs at h with h1 h2 h3 <;> injection h with h4
  · have := char_le_iff.mp h1.2
    have h0 : '0'.toNat = 48 := rfl
    have h9 : '9'.toNat = 57 := rfl
    omega
  · have := char_le_iff.mp h2.2
    have hA : 'A'.toNat = 65 := rfl
    have hF : 'F'.toNat = 70 := rfl
    omega
  · have := char_le_iff.mp h3.2
    have ha : 'a'.toNat = 97 := rfl
    have hf : 'f'.toNat = 102 := rfl
    omega

theorem queryUnescape_chars : ∀ {l r : LC}, queryUnescape l = some r →
    (∀ c ∈ l, c.toNat < 256) → ∀ c ∈ r, c.toNat < 256 := by
  intro l
  induction l using queryUnescape.induct with
  | case1 =>
    intro r h _ c hc
    rw [show queryUnescape [] = some [] from rfl] at h
    injection h with h1
    subst h1
    cases hc
  | case2 hd lo rest2 hv lv hhv hlv ih =>
    intro r h hl c hc
    rw [queryUnescape] at h
    rw [hhv, hlv] at h
    rcases hr : queryUnescape rest2 with _ | r2
    · rw [hr] at h; cases h
    · rw [hr] at h
      injection h with h1
      subst h1
      rcases List.mem_cons.mp hc with rfl | hm
      · rw [char_toNat_ofNat (by have := hexVal_lt hhv; have := hexVal_lt hlv; omega)]
        have := hexVal_lt hhv
        have := hexVal_lt hlv
        omega
      · exact ih hr (fun x hx => hl x (List.mem_cons_of_mem _ (List.mem_cons_of_mem _ (List.mem_cons_of_mem _ hx)))) c hm
  | case3 hd lo rest2 hnone =>
    intro r h hl c hc
    rw [queryUnescape] at h
    rcases hh : hexVal hd with _ | hv <;> rcases hh2 : hexVal lo with _ | lv <;>
      rw [hh, hh2] at h
    · cases h
    · cases h
    · cases h
    · exact (hnone hv lv hh hh2).elim
  | case4 a hshape =>
    intro r h hl c hc
    rw [queryUnescape] at h
    · cases h
    · exact hshape
  | case5 a ih =>
    intro r h hl c hc
    rw [queryUnescape] at h
    rcases hr : queryUnescape a with _ | r2
    · rw [hr] at h; cases h
    · rw [hr] at h
      injection h with h1
      subst h1
      rcases List.mem_cons.mp hc with rfl | hm
      · decide
      · exact ih hr (fun x hx => hl x (List.mem_cons_of_mem _ hx)) c hm
  | case6 a b hp hplus ih =>
    intro r h hl c hc
    rw [queryUnescape_cons_plain (fun he => hp he) (fun he => hplus he)] at h
    rcases hr : queryUnescape b with _ | r2
    · rw [hr] at h; cases h
    · rw [hr] at h
      injection h with h1
      subst h1
      rcases List.mem_cons.mp hc with rfl | hm
      · exact hl c (List.mem_cons_self c b)
      · exact ih hr (fun x hx => hl x (List.mem_cons_of_mem _ hx)) c hm

/-! ### Sorting lemmas (Go `sort.Strings` order) -/

theorem keyLe_total : ∀ (a b : LC), keyLe a b = true ∨ keyLe b a = true
  | [], _ => Or.inl rfl
  | _ :: _, [] => Or.inr rfl
  | a :: s, b :: t => by
    by_cases hab : a < b
    · left
      rw [keyLe, if_pos hab]
    · by_cases hba : b < a
      · right
        rw [keyLe, if_pos hba]
      · rcases keyLe_total s t with h | h
        · left
          rw [keyLe, if_neg hab, if_neg hba]
          exact h
        · right
          rw [keyLe, if_neg hba, if_neg hab]
          exact h

theorem keyLe_trans : ∀ {a b c : LC}, keyLe a b = true → keyLe b c = true → keyLe a c = true
  | [], _, _, _, _ => rfl
  | _ :: _, [], _, h, _ => by cases h
  | _ :: _, _ :: _, [], _, h => by cases h
  | a :: s, b :: t, c :: u, h1, h2 => by
    rw [keyLe] at h1 h2 ⊢
    by_cases hab : a < b
    · by_cases hbc : b < c
      · rw [if_pos (lt_trans hab hbc)]
      · rw [if_neg hbc] at h2
        split_ifs at h2 with hcb
        have hbc' : b = c := le_antisymm (not_lt.mp hcb) (not_lt.mp hbc)
        subst hbc'
        rw [if_pos hab]
    · rw [if_neg hab] at h1
      split_ifs at h1 with hba
      have hab' : a = b := le_antisymm (not_lt.mp hba) (not_lt.mp hab)
      subst hab'
      by_cases hac : a < c
      · rw [if_pos hac]
      · rw [if_neg hac]
        rw [if_neg hac] at h2
        split_ifs at h2 with hca
        rw [if_neg hca]
        exact keyLe_trans h1 h2

instance : IsTotal (LC × LC) pairLe :=
  ⟨fun p q => keyLe_total p.1 q.1⟩

instance : IsTrans (LC × LC) pairLe :=
  ⟨fun _ _ _ h1 h2 => keyLe_trans h1 h2⟩

theorem sortPairs_sorted (ps : List (LC × LC)) : (sortPairs ps).Sorted pairLe :=
  List.sorted_insertionSort pairLe ps

theorem sortPairs_idem (ps : List (LC × LC)) : sortPairs (sortPairs ps) = sortPairs ps :=
  (sortPairs_sorted ps).insertionSort_eq

theorem sortPairs_perm (ps : List (LC × LC)) : (sortPairs ps).Perm ps :=
  List.perm_insertionSort pairLe ps

/-! ### parseQueryPairs / encodePairs lemmas -/

theorem containsSub_single_false {c : Char} : ∀ {l : LC}, c ∉ l → containsSub l [c] = false
  | [], _ => rfl
  | x :: t, h => by
    rw [containsSub]
    have hpre : (([c] : LC).isPrefixOf (x :: t)) = false := by
      simp only [List.isPrefixOf, Bool.and_eq_false_iff]
      left
      simp only [beq_eq_false_iff_ne, ne_eq]
      rintro rfl
      exact h (List.mem_cons_self c t)
    rw [if_neg (by simp [hpre])]
    exact containsSub_single_false (fun hm => h (List.mem_cons_of_mem x hm))

theorem encPair_ne_nil (pr : LC × LC) : encPair pr ≠ [] := by
  unfold encPair
  intro h
  rcases List.append_eq_nil.mp h with ⟨-, h2⟩
  cases h2

theorem mem_encPair {pr : LC × LC} (h1 : ∀ c ∈ pr.1, c.toNat < 256)
    (h2 : ∀ c ∈ pr.2, c.toNat < 256) :
    ∀ x ∈ encPair pr, x ≠ '&' ∧ x ≠ ';' := by
  intro x hx
  unfold encPair at hx
  rcases List.mem_append.mp hx with hm | hm
  · exact ⟨(mem_queryEscape h1 x hm).2.1, (mem_queryEscape h1 x hm).2.2.2⟩
  · rcases List.mem_cons.mp hm with rfl | hm2
    · exact ⟨by decide, by decide⟩
    · exact ⟨(mem_queryEscape h2 x hm2).2.1, (mem_queryEscape h2 x hm2).2.2.2⟩

theorem parsePairOf_encPair {k v : LC} (hk : ∀ c ∈ k, c.toNat < 256)
    (hv : ∀ c ∈ v, c.toNat < 256) :
    parsePairOf (encPair (k, v)) = some (some (k, v)) := by
  have hsemi : (';' : Char) ∉ encPair (k, v) := fun hm =>
    (mem_encPair hk hv ';' hm).2 rfl
  have heqk : ('=' : Char) ∉ queryEscape k := fun hm =>
    (mem_queryEscape hk '=' hm).2.2.1 rfl
  unfold parsePairOf
  rw [if_neg (by simp [containsSub_single_false hsemi]),
    if_neg (encPair_ne_nil (k, v))]
  rw [show encPair (k, v) = queryEscape k ++ '=' :: queryEscape v from rfl,
    cutChar_sep heqk]
  simp only
  rw [queryUnescape_escape hk, queryUnescape_escape hv]

theorem parsePairOf_chars {part : LC} {pr : LC × LC}
    (h : parsePairOf part = some (some pr)) (hb : ∀ c ∈ part, c.toNat < 256) :
    (∀ c ∈ pr.1, c.toNat < 256) ∧ (∀ c ∈ pr.2, c.toNat < 256) := by
  unfold parsePairOf at h
  split_ifs at h with h1 h2
  · injection h with h3
    cases h3
  · rcases hcut : cutChar '=' part with _ | ⟨a, b⟩ <;> rw [hcut] at h <;> dsimp only at h
    · rcases hk : queryUnescape part with _ | k2 <;>
        rcases hv : queryUnescape ([] : LC) with _ | v2 <;> rw [hk, hv] at h <;>
        try cases h
      exact ⟨queryUnescape_chars hk hb, queryUnescape_chars hv (by simp)⟩
    · have hmem := cutChar_mem hcut
      rcases hk : queryUnescape a with _ | k2 <;>
        rcases hv : queryUnescape b with _ | v2 <;> rw [hk, hv] at h <;>
        try cases h
      exact ⟨queryUnescape_chars hk (fun c hc => hb c (hmem.1 c hc)),
        queryUnescape_chars hv (fun c hc => hb c (hmem.2 c hc))⟩

theorem foldr_parse_some_chars :
    ∀ (parts : List LC) (ps : List (LC × LC)),
      parts.foldr (fun part acc =>
        match parsePairOf part, acc with
        | some none, some l => some l
        | some (some p), some l => some (p :: l)
        | _, _ => none) (some []) = some ps →
      (∀ part ∈ parts, ∀ c ∈ part, c.toNat < 256) →
      ∀ pr ∈ ps, (∀ c ∈ pr.1, c.toNat < 256) ∧ (∀ c ∈ pr.2, c.toNat < 256)
  | [], ps, h, _ => by
    injection h with h1
    subst h1
    intro pr hpr
    cases hpr
  | part :: rest, ps, h, hb => by
    rw [List.foldr_cons] at h
    rcases hrest : rest.foldr (fun part acc =>
        match parsePairOf part, acc with
        | some none, some l => some l
        | some (some p), some l => some (p :: l)
        | _, _ => none) (some []) with _ | l <;> rw [hrest] at h <;>
      rcases hp : parsePairOf part with _ | _ | popt <;> rw [hp] at h <;> try cases h
    · exact foldr_parse_some_chars rest ps hrest
        (fun q hq => hb q (List.mem_cons_of_mem part hq))
    · intro pr hpr
      rcases List.mem_cons.mp hpr with rfl | hm
      · exact parsePairOf_chars hp (hb part (List.mem_cons_self part rest))
      · exact foldr_parse_some_chars rest l hrest
          (fun q hq => hb q (List.mem_cons_of_mem part hq)) pr hm

theorem foldr_parse_encode :
    ∀ (qs : List (LC × LC)),
      (∀ pr ∈ qs, (∀ c ∈ pr.1, c.toNat < 256) ∧ (∀ c ∈ pr.2, c.toNat < 256)) →
      (qs.map encPair).foldr (fun part acc =>
        match parsePairOf part, acc with
        | some none, some l => some l
        | some (some p), some l => some (p :: l)
        | _, _ => none) (some []) = some qs
  | [], _ => rfl
  | pr :: rest, h => by
    rw [List.map_cons, List.foldr_cons,
      foldr_parse_encode rest (fun q hq => h q (List.mem_cons_of_mem pr hq))]
    have hpr := h pr (List.mem_cons_self pr rest)
    rw [show encPair pr = encPair (pr.1, pr.2) from rfl, parsePairOf_encPair hpr.1 hpr.2]

theorem parseQueryPairs_encodePairs {ps : List (LC × LC)}
    (h : ∀ pr ∈ ps, (∀ c ∈ pr.1, c.toNat < 256) ∧ (∀ c ∈ pr.2, c.toNat < 256))
    (hne : ps ≠ []) :
    parseQueryPairs (encodePairs ps) = some (sortPairs ps) := by
  have hsortmem : ∀ pr ∈ sortPairs ps, (∀ c ∈ pr.1, c.toNat < 256) ∧ (∀ c ∈ pr.2, c.toNat < 256) :=
    fun pr hpr => h pr ((sortPairs_perm ps).mem_iff.mp hpr)
  have hmapne : (sortPairs ps).map encPair ≠ [] := by
    intro hmap
    have hnil := List.map_eq_nil_iff.mp hmap
    have hperm := sortPairs_perm ps
    rw [hnil] at hperm
    exact hne hperm.symm.eq_nil
  unfold parseQueryPairs encodePairs
  rw [splitOnChar_join hmapne ?hamp]
  case hamp =>
    intro part hpart
    rcases List.mem_map.mp hpart with ⟨pr, hpr, rfl⟩
    intro hm
    exact (mem_encPair (hsortmem pr hpr).1 (hsortmem pr hpr).2 '&' hm).1 rfl
  exact foldr_parse_encode (sortPairs ps) hsortmem

theorem mem_encodePairs {ps : List (LC × LC)}
    (h : ∀ pr ∈ ps, (∀ c ∈ pr.1, c.toNat < 256) ∧ (∀ c ∈ pr.2, c.toNat < 256)) :
    ∀ x ∈ encodePairs ps, isQueryChar x = true := by
  intro x hx
  unfold encodePairs at hx
  rcases mem_of_mem_joinChar hx with rfl | ⟨part, hpart, hxp⟩
  · decide
  · rcases List.mem_map.mp hpart with ⟨pr, hpr, rfl⟩
    have hpr2 := h pr ((sortPairs_perm ps).mem_iff.mp hpr)
    unfold encPair at hxp
    rcases List.mem_append.mp hxp with hm | hm
    · exact (mem_queryEscape hpr2.1 x hm).1
    · rcases List.mem_cons.mp hm with rfl | hm2
      · decide
      · exact (mem_queryEscape hpr2.2 x hm2).1

theorem parseQueryPairs_chars {raw : LC} {ps : List (LC × LC)}
    (hps : parseQueryPairs raw = some ps) (hchars : ∀ c ∈ raw, isQueryChar c = true) :
    ∀ pr ∈ ps, (∀ c ∈ pr.1, c.toNat < 256) ∧ (∀ c ∈ pr.2, c.toNat < 256) := by
  unfold parseQueryPairs at hps
  exact foldr_parse_some_chars (splitOnChar '&' raw) ps hps
    (fun part hpart c hc =>
      isQueryChar_lt (hchars c (mem_of_mem_splitOnChar hpart c hc)))

theorem filterPairs_subset {ps : List (LC × LC)} :
    ∀ pr ∈ filterPairs ps, pr ∈ ps :=
  fun pr hpr => (List.mem_filter.mp hpr).1

theorem normalizeQuery_chars {raw : LC} (hchars : ∀ c ∈ raw, isQueryChar c = true) :
    ∀ x ∈ normalizeQuery raw, isQueryChar x = true := by
  unfold normalizeQuery
  split_ifs with h1
  · intro x hx; cases hx
  · rcases hps : parseQueryPairs raw with _ | ps
    · intro x hx; cases hx
    · simp only
      split_ifs with h2
      · intro x hx; cases hx
      · exact mem_encodePairs
          (fun pr hpr => parseQueryPairs_chars hps hchars pr (filterPairs_subset pr hpr))

theorem normalizeQuery_idem {raw : LC} (hchars : ∀ c ∈ raw, isQueryChar c = true) :
    normalizeQuery (normalizeQuery raw) = normalizeQuery raw := by
  by_cases hraw : raw = []
  · subst hraw
    rfl
  rcases hps : parseQueryPairs raw with _ | ps
  · have h1 : normalizeQuery raw = [] := by
      unfold normalizeQuery
      rw [if_neg hraw, hps]
    rw [h1]
    rfl
  by_cases hkept : filterPairs ps = []
  · have h1 : normalizeQuery raw = [] := by
      unfold normalizeQuery
      rw [if_neg hraw, hps]
      simp [hkept]
    rw [h1]
    rfl
  have h1 : normalizeQuery raw = encodePairs (filterPairs ps) := by
    unfold normalizeQuery
    rw [if_neg hraw, hps]
    simp [hkept]
  rw [h1]
  have hkchars : ∀ pr ∈ filterPairs ps,
      (∀ c ∈ pr.1, c.toNat < 256) ∧ (∀ c ∈ pr.2, c.toNat < 256) :=
    fun pr hpr => parseQueryPairs_chars hps hchars pr (filterPairs_subset pr hpr)
  have hsortne : sortPairs (filterPairs ps) ≠ [] := by
    intro hnil
    have hperm := sortPairs_perm (filterPairs ps)
    rw [hnil] at hperm
    exact hkept hperm.symm.eq_nil
  have hence : encodePairs (filterPairs ps) ≠ [] := by
    unfold encodePairs
    rcases hs : sortPairs (filterPairs ps) with _ | ⟨pr0, rest⟩
    · exact absurd hs hsortne
    · rw [List.map_cons]
      exact joinChar_ne_nil (encPair_ne_nil pr0)
  have hparse2 : parseQueryPairs (encodePairs (filterPairs ps)) =
      some (sortPairs (filterPairs ps)) :=
    parseQueryPairs_encodePairs hkchars hkept
  have hfilter2 : filterPairs (sortPairs (filterPairs ps)) = sortPairs (filterPairs ps) := by
    unfold filterPairs
    refine List.filter_eq_self.mpr ?_
    intro pr hpr
    have := (sortPairs_perm (filterPairs ps)).mem_iff.mp hpr
    exact (List.mem_filter.mp this).2
  unfold normalizeQuery
  rw [if_neg hence, hparse2]
  simp only
  rw [hfilter2, if_neg hsortne]
  unfold encodePairs
  rw [sortPairs_idem]

/-! ### Host and URL round-trip lemmas -/

theorem goToLower_goTrimPref (h : LC) :
    goToLower (goTrimPref (goToLower h) "www.".data) = goTrimPref (goToLower h) "www.".data := by
  unfold goTrimPref
  split_ifs with hp
  · rw [show goToLower (List.drop ("www.".data).length (goToLower h)) =
        List.drop ("www.".data).length (goToLower (goToLower h)) by
      unfold goToLower; rw [List.map_drop]]
    rw [goToLower_idem]
  · exact goToLower_idem h

theorem normalizeHost_idem {h : LC}
    (hw : hasPref "www.".data (normalizeHost h) = false) :
    normalizeHost (normalizeHost h) = normalizeHost h := by
  unfold normalizeHost
  rw [goToLower_goTrimPref]
  unfold normalizeHost hasPref at hw
  rw [goTrimPref, if_neg (fun hcontra => by rw [hw] at hcontra; cases hcontra)]

theorem normalizeHost_chars {h : LC} (hc : ∀ c ∈ h, isHostChar c = true) :
    ∀ c ∈ normalizeHost h, isHostChar c = true := by
  intro c hm
  unfold normalizeHost goTrimPref at hm
  have hlower : ∀ c ∈ goToLower h, isHostChar c = true := by
    intro x hx
    rcases List.mem_map.mp hx with ⟨y, hy, rfl⟩
    exact lowerChar_isHostChar (hc y hy)
  split_ifs at hm
  · exact hlower c (List.mem_of_mem_drop hm)
  · exact hlower c hm

theorem hostnameOf_id {h : LC} (hc : ∀ c ∈ h, isHostChar c = true) :
    hostnameOf h = h := by
  have hcolon : (':' : Char) ∉ h.reverse := by
    rw [List.mem_reverse]
    intro hm
    exact absurd (hc ':' hm) (by decide)
  unfold hostnameOf
  rw [cutChar_not_mem hcolon]

theorem parseURLc_serialize {u : GoURL} (hg : GoodURL u) :
    parseURLc (serializeURL u) = some u := by
  obtain ⟨hs1, hs2, hh, hpshape, hpc, hqc, hf⟩ := hg
  have hser : serializeURL u = u.scheme ++ ':' :: ('/' :: '/' :: (u.host ++ u.path ++
      (if u.rawQuery = [] then [] else '?' :: u.rawQuery))) := by
    unfold serializeURL
    rw [hf, if_pos rfl, List.append_nil]
    simp [List.append_assoc]
  have hcolon_scheme : (':' : Char) ∉ u.scheme := by
    intro hm
    exact absurd (hs2 ':' hm) (by decide)
  have hhash : ('#' : Char) ∉ u.host ++ u.path ++
      (if u.rawQuery = [] then [] else '?' :: u.rawQuery) := by
    intro hm
    rcases List.mem_append.mp hm with hm1 | hm2
    · rcases List.mem_append.mp hm1 with hm3 | hm4
      · exact absurd (hh '#' hm3) (by decide)
      · exact absurd (hpc '#' hm4) (by decide)
    · split_ifs at hm2 with hq
      · cases hm2
      · rcases List.mem_cons.mp hm2 with heq | hm3
        · cases heq
        · exact absurd (hqc '#' hm3) (by decide)
  have hqm_hostpath : ('?' : Char) ∉ u.host ++ u.path := by
    intro hm
    rcases List.mem_append.mp hm with hm1 | hm2
    · exact absurd (hh '?' hm1) (by decide)
    · exact absurd (hpc '?' hm2) (by decide)
  have hslash_host : ('/' : Char) ∉ u.host := by
    intro hm
    exact absurd (hh '/' hm) (by decide)
  have hcut_hostpath : (match cutChar '/' (u.host ++ u.path) with
      | some p => (p.1, '/' :: p.2)
      | none => (u.host ++ u.path, [])) = (u.host, u.path) := by
    rcases hpshape with hpe | hph
    · rw [hpe, List.append_nil, cutChar_not_mem hslash_host]
    · rcases hp : u.path with _ | ⟨c0, prest⟩
      · rw [hp] at hph
        simp at hph
      · have hc0 : c0 = '/' := by
          rw [hp] at hph
          simp only [List.head?] at hph
          injection hph
        subst hc0
        rw [cutChar_sep hslash_host]
  rw [hser]
  unfold parseURLc
  rw [cutChar_sep hcolon_scheme]
  dsimp only
  rw [if_neg hs1, if_neg (by simp [List.all_eq_true.mpr hs2]),
    if_pos (⟨rfl, rfl⟩ : ('/' : Char) = '/' ∧ ('/' : Char) = '/')]
  rw [cutChar_not_mem hhash]
  dsimp only
  by_cases hq : u.rawQuery = []
  · rw [if_pos hq, List.append_nil]
    rw [cutChar_not_mem hqm_hostpath]
    simp only [hcut_hostpath]
    rw [if_pos ⟨List.all_eq_true.mpr hh, List.all_eq_true.mpr hpc, rfl⟩]
    conv_rhs => rw [show u = ⟨u.scheme, u.host, u.path, u.rawQuery, u.fragment⟩ from rfl]
    rw [hq, hf]
  · rw [if_neg hq]
    rw [show u.host ++ u.path ++ '?' :: u.rawQuery =
        (u.host ++ u.path) ++ '?' :: u.rawQuery from by simp [List.append_assoc]]
    rw [cutChar_sep hqm_hostpath]
    simp only [hcut_hostpath]
    rw [if_pos ⟨List.all_eq_true.mpr hh, List.all_eq_true.mpr hpc, List.all_eq_true.mpr hqc⟩]
    conv_rhs => rw [show u = ⟨u.scheme, u.host, u.path, u.rawQuery, u.fragment⟩ from rfl]
    rw [hf]

theorem parseURLc_good {s : LC} {u : GoURL} (h : parseURLc s = some u) :
    (∀ c ∈ u.scheme, isSchemeChar c = true) ∧
    (∀ c ∈ u.host, isHostChar c = true) ∧
    (u.host = [] ∨ u.path = [] ∨ u.path.head? = some '/') ∧
    (∀ c ∈ u.path, isPathChar c = true) ∧ (∀ c ∈ u.rawQuery, isQueryChar c = true) := by
  unfold parseURLc at h
  rcases hc : cutChar ':' s with _ | ⟨scheme, rest⟩ <;> rw [hc] at h
  · dsimp only at h
    split at h
    · rename_i a b rest2 hsceq
      split_ifs at h with hab ha1 ha2
      · injection h with h3
        subst h3
        dsimp only
        refine ⟨by simp, fun c hc2 => List.all_eq_true.mp ha1.1 c hc2, ?_, ?_, ?_⟩
        · refine Or.inr ?_
          rcases hcut : cutChar '/' rest2 with _ | ⟨p1, p2⟩ <;> simp
        · intro c hc2
          revert hc2
          rcases hcut : cutChar '/' rest2 with _ | ⟨p1, p2⟩
          · rw [hcut] at ha1
            intro hc2
            simp at hc2
          · rw [hcut] at ha1
            exact fun hc2 => List.all_eq_true.mp ha1.2.1 c hc2
        · exact fun c hc2 => List.all_eq_true.mp ha1.2.2 c hc2
      · injection h with h3
        subst h3
        exact ⟨by simp, by simp, Or.inl rfl,
          fun c hc2 => List.all_eq_true.mp ha2.1 c hc2,
          fun c hc2 => List.all_eq_true.mp ha2.2 c hc2⟩
    · split_ifs at h with hcond
      injection h with h3
      subst h3
      exact ⟨by simp, by simp, Or.inl rfl,
        fun c hc2 => List.all_eq_true.mp hcond.2.1 c hc2,
        fun c hc2 => List.all_eq_true.mp hcond.2.2 c hc2⟩
  · dsimp only at h
    split_ifs at h with h1 h2
    rcases rest with _ | ⟨a, rest1⟩
    · cases h
    rcases rest1 with _ | ⟨b, rest2⟩
    · cases h
    dsimp only at h
    split_ifs at h with hab hall
    · injection h with h3
      subst h3
      dsimp only
      refine ⟨fun c hc2 => ?_, ?_, ?_, ?_, ?_⟩
      · have := List.all_eq_true.mp (by simpa using h2) c hc2
        exact this
      · exact fun c hc2 => List.all_eq_true.mp hall.1 c hc2
      · refine Or.inr ?_
        rcases hcut : cutChar '/' (match cutChar '?' (match cutChar '#' rest2 with
              | some p => p
              | none => (rest2, [])).1 with
            | some p => p
            | none => ((match cutChar '#' rest2 with
                | some p => p
                | none => (rest2, [])).1, [])).1 with _ | ⟨p1, p2⟩ <;>
          rw [hcut] <;> simp
      · intro c hc2
        revert hc2
        rcases hcut : cutChar '/' (match cutChar '?' (match cutChar '#' rest2 with
              | some p => p
              | none => (rest2, [])).1 with
            | some p => p
            | none => ((match cutChar '#' rest2 with
                | some p => p
                | none => (rest2, [])).1, [])).1 with _ | ⟨p1, p2⟩
        · rw [hcut] at hall ⊢
          intro hc2
          cases hc2
        · rw [hcut] at hall ⊢
          exact fun hc2 => List.all_eq_true.mp hall.2.1 c hc2
      · exact fun c hc2 => List.all_eq_true.mp hall.2.2 c hc2

theorem pathPipeline_shape {p : LC} (hsh : p = [] ∨ p.head? = some '/') :
    (stripLocalePref (normalizePath p)).head? = some '/' := by
  rcases normalizePath_shape hsh with hq | ⟨out, hne, hgood, hq⟩
  · rw [hq, stripLocale_root]
    rfl
  · rw [hq]
    rcases stripLocale_canonical_cases hne
        (fun s hs => ⟨(hgood s hs).1, (hgood s hs).2.1⟩) with hs | ⟨p0, p1, rest, heq, -, -, hs⟩
    · rw [hs]
      rfl
    · rw [hs]
      rfl

theorem pathPipeline_chars {p : LC} (hpc : ∀ c ∈ p, isPathChar c = true)
    (hsh : p = [] ∨ p.head? = some '/') :
    ∀ c ∈ stripLocalePref (normalizePath p), isPathChar c = true := by
  rcases normalizePath_shape hsh with hq | ⟨out, hne, hgood, hq⟩
  · rw [hq, stripLocale_root]
    intro c hc
    rcases List.mem_singleton.mp hc with rfl
    decide
  · rw [hq]
    have hmemchar : ∀ s ∈ out, ∀ c ∈ s, isPathChar c = true := by
      intro s hs c hc
      exact hpc c (mem_of_mem_splitOnChar (hgood s hs).2.2.2.2 c hc)
    rcases stripLocale_canonical_cases hne
        (fun s hs => ⟨(hgood s hs).1, (hgood s hs).2.1⟩) with hs | ⟨p0, p1, rest, heq, -, -, hs⟩
    · rw [hs]
      intro c hc
      rcases List.mem_cons.mp hc with rfl | hm
      · decide
      · rcases mem_of_mem_joinChar hm with rfl | ⟨s, hsmem, hcs⟩
        · decide
        · exact hmemchar s hsmem c hcs
    · rw [hs]
      intro c hc
      rcases List.mem_cons.mp hc with rfl | hm
      · decide
      · rcases mem_of_mem_joinChar hm with rfl | ⟨s, hsmem, hcs⟩
        · decide
        · have hy : ∃ y ∈ out, s = goToLower y := by
            rcases List.mem_cons.mp hsmem with rfl | hm2
            · exact ⟨p1, heq ▸ List.mem_cons_of_mem p0 (List.mem_cons_self p1 rest), rfl⟩
            · rcases List.mem_map.mp hm2 with ⟨y, hy2, rfl⟩
              exact ⟨y, heq ▸ List.mem_cons_of_mem p0 (List.mem_cons_of_mem p1 hy2), rfl⟩
          rcases hy with ⟨y, hyout, rfl⟩
          rcases List.mem_map.mp hcs with ⟨z, hz, rfl⟩
          exact lowerChar_isPathChar (hmemchar y hyout z hz)

theorem normalizeURLc_idem {x n h : LC}
    (hx : normalizeURLc x = some (n, h))
    (hw : hasPref "www.".data h = false)
    (hne : h ≠ []) :
    normalizeURLc n = some (n, h) := by
  unfold normalizeURLc at hx
  rcases hu : parseURLc x with _ | u <;> rw [hu] at hx
  · cases hx
  obtain ⟨hg2, hg3, hg4, hg5, hg6⟩ := parseURLc_good hu
  dsimp only at hx
  injection hx with hx1
  have hn : serializeURL ⟨(if u.scheme = [] then "https".data else u.scheme),
      normalizeHost u.host,
      stripLocalePref (normalizePath u.path), normalizeQuery u.rawQuery, []⟩ = n :=
    congrArg Prod.fst hx1
  have hhh : hostnameOf (normalizeHost u.host) = h := congrArg Prod.snd hx1
  have hhid : hostnameOf (normalizeHost u.host) = normalizeHost u.host :=
    hostnameOf_id (normalizeHost_chars hg3)
  have hheq : normalizeHost u.host = h := by rw [← hhid, hhh]
  have hhostne : u.host ≠ [] := by
    intro h0
    apply hne
    rw [← hheq, h0]
    rfl
  have hshape : u.path = [] ∨ u.path.head? = some '/' := hg4.resolve_left hhostne
  have hsch1 : (if u.scheme = [] then "https".data else u.scheme) ≠ [] := by
    split_ifs with h0
    · decide
    · exact h0
  have hsch2 : ∀ c ∈ (if u.scheme = [] then "https".data else u.scheme),
      isSchemeChar c = true := by
    split_ifs with h0
    · decide
    · exact hg2
  have hgood : GoodURL ⟨(if u.scheme = [] then "https".data else u.scheme),
      normalizeHost u.host,
      stripLocalePref (normalizePath u.path), normalizeQuery u.rawQuery, []⟩ := by
    refine ⟨hsch1, hsch2, ?_, ?_, ?_, ?_, rfl⟩
    · exact fun c hc => normalizeHost_chars hg3 c hc
    · exact Or.inr (pathPipeline_shape hshape)
    · exact fun c hc => pathPipeline_chars hg5 hshape c hc
    · exact fun c hc => normalizeQuery_chars hg6 c hc
  have hparse : parseURLc n = some ⟨(if u.scheme = [] then "https".data else u.scheme),
      normalizeHost u.host,
      stripLocalePref (normalizePath u.path), normalizeQuery u.rawQuery, []⟩ := by
    rw [← hn]
    exact parseURLc_serialize hgood
  unfold normalizeURLc
  rw [hparse]
  dsimp only
  rw [if_neg hsch1]
  rw [normalizeHost_idem (by rw [hheq]; exact hw)]
  rw [(pathPipeline_stable hshape).1, (pathPipeline_stable hshape).2]
  rw [normalizeQuery_idem hg6]
  rw [hn, hhh]

/-- C8 counterexample: `normalize` is not idempotent, in two ways.
First, it strips only one `www.` per call:
`https://www.www.example.com/` normalizes to
`https://www.example.com/`, which normalizes again to
`https://example.com/`.  Second, a scheme-less input parses with an
empty host and a relative path, so `example.com` normalizes to
`https://example.com` with host `""`, and renormalizing that yields
`https://example.com/` with host `example.com`. -/
theorem normalize_not_idempotent :
    (Normalize "https://www.www.example.com/" =
        some ("https://www.example.com/", "www.example.com") ∧
      Normalize "https://www.example.com/" =
        some ("https://example.com/", "example.com") ∧
      (("https://example.com/" : String), ("example.com" : String)) ≠
        ("https://www.example.com/", "www.example.com")) ∧
    (Normalize "example.com" = some ("https://example.com", "") ∧
      Normalize "https://example.com" = some ("https://example.com/", "example.com") ∧
      (("https://example.com/" : String), ("example.com" : String)) ≠
        ("https://example.com", "")) := by
  exact ⟨⟨by rfl, by rfl, by decide⟩, ⟨by rfl, by rfl, by decide⟩⟩

/-- C8 amended: `normalize` is idempotent on every input on which it
succeeds whose returned host is nonempty and does not still begin with
`www.`.  Both exclusions are necessary: the `www.`-stripping removes
one prefix per call, so hosts like `www.www.x` escape; and a
scheme-less input keeps an empty host with its whole text as a relative
path, which the re-serialization turns into an authority, so
renormalizing changes both the URL and the host (see the
counterexample).  Host lowercasing, scheme defaulting, fragment
removal, path collapsing, locale-prefix stripping and query
filtering/reordering are idempotent. -/
theorem normalize_idempotent_amended (x n host : String)
    (hx : Normalize x = some (n, host))
    (hw : hasPref "www.".data host.data = false)
    (hne : host ≠ "") :
    Normalize n = some (n, host) := by
  unfold Normalize at hx ⊢
  rcases hn : normalizeURLc x.data with _ | p <;> rw [hn] at hx
  · cases hx
  injection hx with hx1
  have h1 : String.mk p.1 = n := congrArg Prod.fst hx1
  have h2 : String.mk p.2 = host := congrArg Prod.snd hx1
  have hnd : n.data = p.1 := by rw [← h1]
  have hhd : host.data = p.2 := by rw [← h2]
  have hned : p.2 ≠ [] := by
    intro h0
    apply hne
    rw [← h2, h0]
  rw [hnd, @normalizeURLc_idem x.data _ _ (by rw [hn]) (by rw [← hhd]; exact hw) hned]
  rw [Option.map_some']
  rw [show (p.1, p.2) = p from rfl] at *
  rw [h1, h2]

/-- C8 witness: idempotence at a scheme-less authority URL exercising
scheme defaulting, host lowercasing, locale-prefix stripping and query
filtering/reordering. -/
theorem normalize_idempotent_witness :
    Normalize "https://example.com/careers?a=1&b=2" =
      some ("https://example.com/careers?a=1&b=2", "example.com") := by
  exact normalize_idempotent_amended "//Example.com/en/careers?b=2&utm_campaign=x&a=1"
    "https://example.com/careers?a=1&b=2" "example.com" (by rfl) (by rfl) (by decide)

/-- C4 counterexample: the blocked-first-segment rule fires before the
career-keyword escape, so `/blog/careers/engineer` IS forced to
`non_job`, while the claim says it falls through (to `job_detail`). -/
theorem detect_blocked_first_counterexample :
    DetectPageType "https://example.com/blog/careers/engineer".data = PageTypeNonJob ∧
    containsJobSegment (["blog", "careers", "engineer"].map String.data) = true ∧
    pathShapeClassify (["blog", "careers", "engineer"].map String.data) = PageTypeJobDetail ∧
    PageTypeJobDetail ≠ PageTypeNonJob := by
  refine ⟨by rfl, by rfl, by rfl, by decide⟩

/-- C4 amended: for a non-ATS host, a blocked FIRST path segment forces
`non_job` unconditionally — career/job keywords elsewhere do not rescue
it; the career-keyword escape only applies to blocked segments after the
first: when the first segment is not blocked, a blocked later segment
forces `non_job` unless some segment is a career/job keyword (or
`job`), in which case classification falls through to the
career-root/job-list/job-detail rules. -/
theorem detect_blocked_path_rules (x n host : LC) (u : GoURL) (segs : List LC)
    (hn : normalizeURLc x = some (n, host))
    (hu : parseURLc n = some u)
    (hsegs : splitPath u.path = segs)
    (hhost : host ≠ [])
    (hats : IsATSHost host = false) :
    (∀ s0 rest, segs = s0 :: rest → blockedSegments.contains s0 = true →
      DetectPageType x = PageTypeNonJob) ∧
    (∀ s0 rest, segs = s0 :: rest → blockedSegments.contains s0 = false →
      containsJobSegment segs = true →
      DetectPageType x = pathShapeClassify segs) ∧
    (∀ s0 rest, segs = s0 :: rest → blockedSegments.contains s0 = false →
      containsJobSegment segs = false →
      segs.any (fun s => blockedSegments.contains s) = true →
      DetectPageType x = PageTypeNonJob) := by
  have hbase : DetectPageType x =
      (if isBlockedPath segs then PageTypeNonJob else pathShapeClassify segs) := by
    unfold DetectPageType
    rw [hn]
    dsimp only
    rw [hu]
    dsimp only
    rw [hsegs, if_neg hhost, if_neg (by simp [hats])]
  refine ⟨?_, ?_, ?_⟩
  · intro s0 rest hseq hblocked
    rw [hbase, hseq, if_pos (by rw [isBlockedPath, hblocked]; simp)]
  · intro s0 rest hseq hblocked hjob
    have hjob' : containsJobSegment (s0 :: rest) = true := hseq ▸ hjob
    rw [hbase, hseq, if_neg (by rw [isBlockedPath, hblocked, hjob']; simp)]
  · intro s0 rest hseq hblocked hjob hany
    have hjob' : containsJobSegment (s0 :: rest) = false := hseq ▸ hjob
    have hany' : (s0 :: rest).any (fun s => blockedSegments.contains s) = true :=
      hseq ▸ hany
    rw [hbase, hseq, if_pos (by rw [isBlockedPath, hblocked, hjob', hany']; simp)]

/-- C4 witness: `/blog/careers/engineer` (blocked first segment) is
forced to `non_job`; `/team/blog/careers` (blocked second segment, but a
career keyword in the path) falls through. -/
theorem detect_blocked_path_rules_witness :
    DetectPageType "https://example.com/blog/careers/engineer".data = PageTypeNonJob ∧
    DetectPageType "https://example.com/team/blog/careers".data =
      pathShapeClassify (["team", "blog", "careers"].map String.data) := by
  constructor
  · exact (detect_blocked_path_rules "https://example.com/blog/careers/engineer".data
      "https://example.com/blog/careers/engineer".data "example.com".data
      ⟨"https".data, "example.com".data, "/blog/careers/engineer".data, [], []⟩
      (["blog", "careers", "engineer"].map String.data)
      (by rfl) (by rfl) (by rfl) (by decide) (by rfl)).1
      "blog".data (["careers", "engineer"].map String.data) (by rfl) (by rfl)
  · exact (detect_blocked_path_rules "https://example.com/team/blog/careers".data
      "https://example.com/team/blog/careers".data "example.com".data
      ⟨"https".data, "example.com".data, "/team/blog/careers".data, [], []⟩
      (["team", "blog", "careers"].map String.data)
      (by rfl) (by rfl) (by rfl) (by decide) (by rfl)).2.1
      "team".data (["blog", "careers"].map String.data) (by rfl) (by rfl) (by rfl)

theorem isSlugSeg_chars {s : LC} (h : isSlugSeg s = true) :
    s ≠ [] ∧ ∀ c ∈ s, ('a' ≤ c ∧ c ≤ 'z') ∨ ('0' ≤ c ∧ c ≤ '9') ∨ c = '-' := by
  unfold isSlugSeg at h
  rw [Bool.and_eq_true] at h
  refine ⟨?_, ?_⟩
  · intro he
    subst he
    simp at h
  · intro c hc
    exact of_decide_eq_true (List.all_eq_true.mp h.2 c hc)

theorem slug_char_lower {c : Char}
    (h : ('a' ≤ c ∧ c ≤ 'z') ∨ ('0' ≤ c ∧ c ≤ '9') ∨ c = '-') : lowerChar c = c := by
  apply lowerChar_eq_self
  rintro ⟨h1, h2⟩
  rw [char_le_iff, show 'A'.toNat = 65 from rfl] at h1
  rw [char_le_iff, show 'Z'.toNat = 90 from rfl] at h2
  rcases h with ⟨g1, _⟩ | ⟨_, g2⟩ | g
  · rw [char_le_iff, show 'a'.toNat = 97 from rfl] at g1
    omega
  · rw [char_le_iff, show '9'.toNat = 57 from rfl] at g2
    omega
  · subst g
    exact absurd h1 (by decide)

theorem slug_char_isPathChar {c : Char}
    (h : ('a' ≤ c ∧ c ≤ 'z') ∨ ('0' ≤ c ∧ c ≤ '9') ∨ c = '-') : isPathChar c = true := by
  unfold isPathChar
  apply decide_eq_true
  rcases h with h | h | h
  · exact Or.inl (by unfold isAlnumChar; exact decide_eq_true (Or.inr (Or.inl h)))
  · exact Or.inl (by unfold isAlnumChar; exact decide_eq_true (Or.inr (Or.inr h)))
  · exact Or.inr (Or.inl h)

theorem slug_seg_good {s : LC} (h : isSlugSeg s = true) :
    s ≠ [] ∧ '/' ∉ s ∧ s ≠ ['.'] ∧ s ≠ ['.', '.'] := by
  obtain ⟨hne, hch⟩ := isSlugSeg_chars h
  refine ⟨hne, ?_, ?_, ?_⟩
  · intro hm
    rcases hch '/' hm with hx | hx | hx
    · exact absurd hx.1 (by decide)
    · exact absurd hx.1 (by decide)
    · exact absurd hx (by decide)
  · intro he
    have hmem : ('.' : Char) ∈ s := by simp [he]
    rcases hch '.' hmem with hx | hx | hx
    · exact absurd hx.1 (by decide)
    · exact absurd hx.1 (by decide)
    · exact absurd hx (by decide)
  · intro he
    have hmem : ('.' : Char) ∈ s := by simp [he]
    rcases hch '.' hmem with hx | hx | hx
    · exact absurd hx.1 (by decide)
    · exact absurd hx.1 (by decide)
    · exact absurd hx (by decide)

theorem goToLower_slug {s : LC} (h : isSlugSeg s = true) : goToLower s = s := by
  obtain ⟨-, hch⟩ := isSlugSeg_chars h
  unfold goToLower
  have hmap : List.map lowerChar s = List.map id s :=
    List.map_congr_left (fun c hc => slug_char_lower (hch c hc))
  rw [hmap, List.map_id]

/-- C9 counterexample: for the greenhouse URL
`https://boards.greenhouse.io/go/jobs/12345`, whose company slug `go` is
locale-shaped, `Normalize` strips the slug as a locale prefix first, so
`NormalizeATSLink` returns `https://boards.greenhouse.io/jobs` — not the
claimed `https://boards.greenhouse.io/go`. -/
theorem normalize_ats_locale_counterexample :
    normalizeATSLinkc "https://boards.greenhouse.io/go/jobs/12345".data =
      some ("https://boards.greenhouse.io/jobs".data, "boards.greenhouse.io".data) ∧
    normalizeATSLinkc "https://boards.greenhouse.io/go/jobs/12345".data ≠
      some ("https://boards.greenhouse.io/go".data, "boards.greenhouse.io".data) := by
  refine ⟨by rfl, by decide⟩

/-- C9 amended: for `https://boards.greenhouse.io/<co>/jobs/<id>` where
the company slug `<co>` is NOT locale-shaped (and not `embed`),
`NormalizeATSLink` returns `https://boards.greenhouse.io/<co>` with
empty query and fragment, and `IsATSHost` holds for the returned host;
locale-shaped slugs are excluded because `Normalize` strips them from
the path first (see the counterexample). -/
theorem normalize_ats_greenhouse_amended (co idseg : LC)
    (hco : isSlugSeg co = true) (hid : isSlugSeg idseg = true)
    (hloc : isLocale co = false) (hemb : co ≠ "embed".data) :
    normalizeATSLinkc ("https://boards.greenhouse.io/".data ++ co ++ "/jobs/".data ++ idseg) =
      some ("https://boards.greenhouse.io/".data ++ co, "boards.greenhouse.io".data) ∧
    IsATSHost "boards.greenhouse.io".data = true := by
  refine ⟨?_, by decide⟩
  have hcoP := isSlugSeg_chars hco
  have hidP := isSlugSeg_chars hid
  have hgoodseg : ∀ s ∈ [co, "jobs".data, idseg],
      s ≠ [] ∧ '/' ∉ s ∧ s ≠ ['.'] ∧ s ≠ ['.', '.'] := by
    intro s hsm
    simp only [List.mem_cons, List.not_mem_nil, or_false] at hsm
    rcases hsm with rfl | rfl | rfl
    · exact slug_seg_good hco
    · exact ⟨by decide, by decide, by decide, by decide⟩
    · exact slug_seg_good hid
  have hjoin : joinChar '/' [co, "jobs".data, idseg]
      = co ++ '/' :: ("jobs".data ++ '/' :: idseg) := rfl
  have hpathchars : ∀ c ∈ ('/' :: (co ++ '/' :: ("jobs".data ++ '/' :: idseg)) : LC),
      isPathChar c = true := by
    intro c hc
    rcases List.mem_cons.mp hc with rfl | hc
    · decide
    rcases List.mem_append.mp hc with hc | hc
    · exact slug_char_isPathChar (hcoP.2 c hc)
    rcases List.mem_cons.mp hc with rfl | hc
    · decide
    rcases List.mem_append.mp hc with hc | hc
    · exact (by decide : ∀ c ∈ ("jobs".data : LC), isPathChar c = true) c hc
    rcases List.mem_cons.mp hc with rfl | hc
    · decide
    · exact slug_char_isPathChar (hidP.2 c hc)
  have hA : ("https://boards.greenhouse.io/".data : LC)
      = "https".data ++ ':' :: '/' :: '/' :: ("boards.greenhouse.io".data ++ ['/']) := by
    decide
  have hB : ("/jobs/".data : LC) = '/' :: ("jobs".data ++ ['/']) := by decide
  have hser : serializeURL ⟨"https".data, "boards.greenhouse.io".data,
      '/' :: joinChar '/' [co, "jobs".data, idseg], [], []⟩
      = "https://boards.greenhouse.io/".data ++ co ++ "/jobs/".data ++ idseg := by
    rw [hA, hB]
    unfold serializeURL
    rw [hjoin]
    simp [List.append_assoc]
  have hgood : GoodURL ⟨"https".data, "boards.greenhouse.io".data,
      '/' :: joinChar '/' [co, "jobs".data, idseg], [], []⟩ := by
    refine ⟨?_, ?_, ?_, Or.inr rfl, ?_, by simp, rfl⟩
    · show ("https".data : LC) ≠ []
      decide
    · show ∀ c ∈ ("https".data : LC), isSchemeChar c = true
      decide
    · show ∀ c ∈ ("boards.greenhouse.io".data : LC), isHostChar c = true
      decide
    · show ∀ c ∈ ('/' :: joinChar '/' [co, "jobs".data, idseg] : LC), isPathChar c = true
      rw [hjoin]
      exact hpathchars
  have hparse : parseURLc ("https://boards.greenhouse.io/".data ++ co ++ "/jobs/".data ++ idseg)
      = some ⟨"https".data, "boards.greenhouse.io".data,
          '/' :: joinChar '/' [co, "jobs".data, idseg], [], []⟩ := by
    rw [← hser]
    exact parseURLc_serialize hgood
  have hnormPath : normalizePath ('/' :: joinChar '/' [co, "jobs".data, idseg])
      = '/' :: joinChar '/' [co, "jobs".data, idseg] :=
    normalizePath_canonical (by simp) hgoodseg
  have hsplit : splitPath ('/' :: joinChar '/' [co, "jobs".data, idseg])
      = [co, "jobs".data, idseg] := by
    rw [splitPath_canonical (by simp) (fun s hs => ⟨(hgoodseg s hs).1, (hgoodseg s hs).2.1⟩),
      List.map_cons, List.map_cons, List.map_cons, List.map_nil,
      goToLower_slug hco, goToLower_slug hid,
      (by decide : goToLower "jobs".data = "jobs".data)]
  have hstrip : stripLocalePref ('/' :: joinChar '/' [co, "jobs".data, idseg])
      = '/' :: joinChar '/' [co, "jobs".data, idseg] := by
    unfold stripLocalePref
    rw [hsplit]
    dsimp only
    rw [if_pos (by simp [hloc])]
  have hnorm : normalizeURLc ("https://boards.greenhouse.io/".data ++ co ++ "/jobs/".data ++ idseg)
      = some ("https://boards.greenhouse.io/".data ++ co ++ "/jobs/".data ++ idseg,
              "boards.greenhouse.io".data) := by
    unfold normalizeURLc
    rw [hparse]
    dsimp only
    rw [if_neg (by decide : ¬("https".data : LC) = []),
      (by decide : normalizeHost "boards.greenhouse.io".data = "boards.greenhouse.io".data),
      hnormPath, hstrip,
      (by decide : normalizeQuery ([] : LC) = [])]
    dsimp only
    rw [hser, (by decide : hostnameOf "boards.greenhouse.io".data = "boards.greenhouse.io".data)]
  have hser2 : serializeURL ⟨"https".data, "boards.greenhouse.io".data, '/' :: co, [], []⟩
      = "https://boards.greenhouse.io/".data ++ co := by
    unfold serializeURL
    rw [hA]
    simp [List.append_assoc]
  unfold normalizeATSLinkc
  rw [hnorm]
  dsimp only
  rw [if_neg (by decide :
    ¬("boards.greenhouse.io".data = ([] : LC) ∨
      ¬IsATSHost "boards.greenhouse.io".data = true))]
  rw [hparse]
  dsimp only
  rw [hsplit]
  rw [if_neg (by decide :
    ¬containsSub "boards.greenhouse.io".data "lever.co".data = true)]
  rw [if_pos (by decide :
    containsSub "boards.greenhouse.io".data "greenhouse.io".data = true)]
  dsimp only
  rw [if_neg hemb]
  rw [hser2, (by decide : hostnameOf "boards.greenhouse.io".data = "boards.greenhouse.io".data)]

/-- C9 witness: the amended law at the concrete greenhouse URL
`https://boards.greenhouse.io/acme/jobs/12345`. -/
theorem normalize_ats_greenhouse_witness :
    normalizeATSLinkc "https://boards.greenhouse.io/acme/jobs/12345".data =
      some ("https://boards.greenhouse.io/acme".data, "boards.greenhouse.io".data) ∧
    IsATSHost "boards.greenhouse.io".data = true := by
  have h := normalize_ats_greenhouse_amended "acme".data "12345".data
    (by decide) (by decide) (by decide) (by decide)
  refine ⟨?_, h.2⟩
  rw [show ("https://boards.greenhouse.io/acme/jobs/12345".data : LC)
      = "https://boards.greenhouse.io/".data ++ "acme".data ++ "/jobs/".data ++ "12345".data
      from by decide,
    show ("https://boards.greenhouse.io/acme".data : LC)
      = "https://boards.greenhouse.io/".data ++ "acme".data from by decide]
  exact h.1
